import Mathlib

/-!
Verification development for the Push-The-Squares solver, version 0.51
(`versions/0.51/solve.py`).  The definitions below are a shallow embedding
of that file: the `Board` and `Status` classes, the recursive chain
resolution `_push_forward`, the per-move function `_move`, the breadth
first search `solve`, and the constructor `Solver.__init__` together with
`validate`.

Modelling conventions:
* Python list indexing `l[i]` is embedded by `pyGet`, which wraps negative
  indices (Python semantics) and returns `none` for an out-of-range index;
  `none` models an uncaught `IndexError`.
* Any uncaught Python exception (IndexError, KeyError, ValueError, a failed
  `assert`) is modelled by an `Option` result of `none`.
* Python `set` iteration order is unspecified; it is modelled as
  first-insertion order (`firstDedup`).
* The recursion of `_push_forward` is embedded with explicit fuel; every
  concrete evaluation below supplies ample fuel.
-/

namespace PushSquares

/-- Board coordinate, `(row, col)` as in the Python tuples.  Int is used
because computed targets may leave the board. -/
abbrev Pos := Int × Int

/-- Facing / travel direction, the `NEWS` characters of the source. -/
inductive Dir where
  | N | E | W | S
deriving DecidableEq, Repr

open Dir

/-- The `VELOCITIES` table of the source. -/
def vel : Dir → Int × Int
  | .N => (-1, 0)
  | .E => (0, 1)
  | .W => (0, -1)
  | .S => (1, 0)

/-- A static cell of the built board: `'.'`, `'O'+name, `'D'+color, `'X'`,
`'C'+direction` in the source's string encoding. -/
inductive Cell where
  | empty
  | portal (name : String)
  | dest (color : Char)
  | obstacle
  | changer (d : Dir)
deriving DecidableEq, Repr

/-- One `Status.set` call: a block instance record (color, position, facing). -/
structure Entry where
  color : Char
  pos : Pos
  dir : Dir
deriving DecidableEq, Repr

/-- Python list indexing: wraps a negative index, `none` (= IndexError)
out of range. -/
def pyGet (l : List α) (i : Int) : Option α :=
  if 0 ≤ i ∧ i < l.length then l.get? i.toNat
  else if -(l.length : Int) ≤ i ∧ i < 0 then l.get? (i + l.length).toNat
  else none

/-- The `Board` class: the cell grid plus the tables filled by `Board.set`.
The write-only `obstacles` and `changer` lists of the source are omitted:
no code path reads them (obstacle and changer queries go through the grid). -/
structure Board where
  grid : List (List Cell)
  dests : List (Char × Pos)
  portals : List (String × List Pos)
deriving DecidableEq, Repr

def Board.height (b : Board) : Int := b.grid.length

def Board.width (b : Board) : Int := (b.grid.headD []).length

/-- Cell lookup `self.board[pos[0]][pos[1]]` with Python indexing semantics. -/
def Board.cellAt (b : Board) (p : Pos) : Option Cell :=
  (pyGet b.grid p.1).bind fun row => pyGet row p.2

/-- Portal test `Board.is_portal`: first character of the cell string is `'O'`. -/
def Board.isPortal (b : Board) (p : Pos) : Option Bool :=
  (b.cellAt p).map fun c => match c with
    | .portal _ => true
    | _ => false

/-- Obstacle test `Board.is_obstacle`: the cell string equals `'X'`. -/
def Board.isObstacle (b : Board) (p : Pos) : Option Bool :=
  (b.cellAt p).map fun c => c = Cell.obstacle

/-- Changer query `Board.get_facing_change_by_position`: the changer direction at the
cell, if the cell is a changer.  Outer `none` = IndexError. -/
def Board.facingChangeAt (b : Board) (p : Pos) : Option (Option Dir) :=
  (b.cellAt p).map fun c => match c with
    | .changer d => some d
    | _ => none

/-- Pairing query `Board.get_another_portal`: scan the portal table; for
the list of a name, position `portals[0]` maps to `portals[1]` and
conversely.  The source evaluates `portals[1]` for every name whose
`portals[0]` differs from the query, so a one-cell portal name raises
IndexError as soon as it is scanned, whether or not it holds the query;
`none` models that crash and the final `ValueError`. -/
def getAnotherPortal : List (String × List Pos) → Pos → Option Pos
  | [], _ => none
  | (_, cells) :: rest, p =>
    match cells.get? 0 with
    | none => none
    | some c0 =>
      if c0 = p then cells.get? 1
      else
        match cells.get? 1 with
        | none => none
        | some c1 => if c1 = p then some c0 else getAnotherPortal rest p

/-- Destination query `Board.destinations c`, before the `set(...)` conversion: the append
order list of destination cells recorded for color `c`. -/
def Board.destList (b : Board) (c : Char) : List Pos :=
  b.dests.filterMap fun e => if e.1 = c then some e.2 else none

/-- First-insertion-order deduplication, the order chosen to model Python
set/dict-key iteration. -/
def dedupAux [DecidableEq α] (seen : List α) : List α → List α
  | [] => []
  | a :: as => if a ∈ seen then dedupAux seen as else a :: dedupAux (seen ++ [a]) as

def firstDedup [DecidableEq α] (l : List α) : List α := dedupAux [] l

/-- Set of colors having a destination, `Board.colors`. -/
def Board.colorList (b : Board) : List Char := firstDedup (b.dests.map (·.1))

/-- The `Status` class.  `self.pos` (a color-keyed dict of position lists)
and `self.facing_map` (position-keyed, last write wins) are both recovered
from the sequence of `Status.set` calls. -/
structure Status where
  entries : List Entry
deriving DecidableEq, Repr

/-- Recording one block instance, `Status.set`. -/
def Status.set (s : Status) (c : Char) (p : Pos) (d : Dir) : Status :=
  ⟨s.entries ++ [⟨c, p, d⟩]⟩

/-- Position list `self.pos[c]`: append-order list of positions recorded for color `c`. -/
def Status.posList (s : Status) (c : Char) : List Pos :=
  s.entries.filterMap fun e => if e.color = c then some e.pos else none

/-- Keys of `self.pos` in first-insertion order. -/
def Status.colorKeys (s : Status) : List Char := firstDedup (s.entries.map (·.color))

/-- All recorded positions, with multiplicity. -/
def Status.allPositions (s : Status) : List Pos := s.entries.map (·.pos)

/-- Facing lookup `Status.facing`, that is `self.facing_map[pos]`; the last `set` at the position
wins; `none` = KeyError. -/
def Status.facingAt (s : Status) (p : Pos) : Option Dir :=
  ((s.entries.filter fun e => e.pos = p).getLast?).map (·.dir)

/-- Occupancy query `Status.get_color_from_position`: first color key whose position set
contains `p`, else `None`. -/
def Status.colorAt (s : Status) (p : Pos) : Option Char :=
  s.colorKeys.find? fun c => p ∈ s.posList c

/-- Boolean equality of lists viewed as sets (Python `set(..) == set(..)`). -/
def setEqB [DecidableEq α] (a b : List α) : Bool :=
  a.all (· ∈ b) && b.all (· ∈ a)

/-- Structural equality `Status.__eq__`: same color sets; per color the same position sets; the
same recorded facing at each position. -/
def Status.eqB (s o : Status) : Bool :=
  setEqB s.colorKeys o.colorKeys &&
  s.colorKeys.all fun c =>
    setEqB (s.posList c) (o.posList c) &&
    (firstDedup (s.posList c)).all fun p => s.facingAt p = o.facingAt p

/-- Terminal test `Status.finished`: for every color of the status, its position set
equals the board's destination set for that color. -/
def Status.finished (s : Status) (b : Board) : Bool :=
  s.colorKeys.all fun c => setEqB (s.posList c) (b.destList c)

/-! ### The Move Resolver: `_push_forward` and `_move` -/

/-- The mutable state threaded through one `_move`: the `new_status` under
construction, `pos_in_chain`, and `pushed_grids`. -/
structure PState where
  ns : List Entry
  chain : List Pos
  pushed : List Pos
deriving DecidableEq, Repr

def PState.empty : PState := ⟨[], [], []⟩

def PState.addEntry (st : PState) (c : Char) (p : Pos) (d : Dir) : PState :=
  { st with ns := st.ns ++ [⟨c, p, d⟩] }

/-- The Python membership test `color not in pushed_grids` compares a color
string against a set of position tuples; a `str` never equals a `tuple`,
so the test element-wise equality is constantly false. -/
def pyStrTupleEq (_ : Char) (_ : Pos) : Bool := false

def memColorPos (c : Char) (s : List Pos) : Bool := s.any (pyStrTupleEq c)

/-- The in-bounds test `0 <= i < height and 0 <= j < width`. -/
def Board.inBounds (b : Board) (p : Pos) : Bool :=
  0 ≤ p.1 && p.1 < b.height && 0 ≤ p.2 && p.2 < b.width

/-- Target computation at the head of `_push_forward`: one step along the
travel direction; if that in-bounds cell is a portal, one further step past
the paired portal (with no renewed bounds check — the source omits one).
`none` = crash while pairing the portal; `some none` = target off board;
`some (some t)` = resolved target `t`. -/
def resolveTarget (b : Board) (p : Pos) (t : Dir) : Option (Option Pos) :=
  let v := vel t
  let tp : Pos := (p.1 + v.1, p.2 + v.2)
  if b.inBounds tp then
    match b.isPortal tp with
    | none => none
    | some true =>
      match getAnotherPortal b.portals tp with
      | none => none
      | some q => some (some (q.1 + v.1, q.2 + v.2))
    | some false => some (some tp)
  else some none

/-- The successful-advance tail of `_push_forward`: apply the changer
override at the target (`... or facing`), record the move in `new_status`,
extend `pushed_grids`.  Outer `none` = IndexError reading the changer. -/
def pfAdvance (b : Board) (st : PState)
    (color : Char) (pos : Pos) (facing : Dir) (target : Pos) :
    Option (Bool × PState) :=
  match b.facingChangeAt target with
  | none => none
  | some ov =>
    some (true, { st.addEntry color target (ov.getD facing) with
                  pushed := st.pushed ++ [pos] })

/-- The branch of `_push_forward` taken when no pushable occupant is at the
target: the `elif is_obstacle` test, then the unconditional advance.
Outer `none` = IndexError reading the (possibly teleported) target cell. -/
def pfBlockedOrFree (b : Board) (st : PState)
    (color : Char) (pos : Pos) (facing : Dir) (target : Pos) :
    Option (Bool × PState) :=
  match b.isObstacle target with
  | none => none
  | some true => some (false, st.addEntry color pos facing)
  | some false => pfAdvance b st color pos facing target

/-- Chain resolution `_push_forward(pos, towards, original_status, new_status, pos_in_chain,
pushed_grids, original_color)`.  Returns `some (moved, st)` mirroring the
source's boolean return plus the mutated shared state, `none` for an
uncaught exception.  The `original_color` argument is never read by the
source and is dropped. -/
def pushForward (b : Board) (os : Status) :
    Nat → Pos → Dir → PState → Option (Bool × PState)
  | 0, _, _, _ => none
  | fuel + 1, pos, t, st =>
    if pos ∈ st.chain then some (true, st)
    else
      let st1 : PState := { st with chain := st.chain ++ [pos] }
      match os.colorAt pos, os.facingAt pos with
      | some color, some facing =>
        match resolveTarget b pos t with
        | none => none
        | some none => some (false, st1.addEntry color pos facing)
        | some (some target) =>
          match os.colorAt target with
          | some oc =>
            if memColorPos oc st1.pushed then
              -- occupant counted as already moved: falls to the obstacle test
              pfBlockedOrFree b st1 color pos facing target
            else
              -- same color: continue along the occupant's own facing
              -- (`original_status.facing(target_pos)`; KeyError = crash)
              match (if oc = color then os.facingAt target else some t) with
              | none => none
              | some nt =>
                if (vel t).1 + (vel nt).1 = 0 ∧ (vel t).2 + (vel nt).2 = 0 then
                  some (false, st1.addEntry color pos facing)
                else
                  match pushForward b os fuel target nt st1 with
                  | none => none
                  | some (true, st2) => pfAdvance b st2 color pos facing target
                  | some (false, st2) => some (false, st2.addEntry color pos facing)
          | none => pfBlockedOrFree b st1 color pos facing target
      | _, _ => none

/-- Fuel that strictly dominates the recursion depth of `_push_forward`:
every non-cycle frame adds a distinct occupied position to `pos_in_chain`. -/
def pfFuel (os : Status) : Nat := os.entries.length + 1

/-- Initiator set `positions = status.positions(color)` of `_move`: the
set of positions of the chosen color.  CPython 2 iterates a set in
hash-slot order (for positions in a fresh small set, ascending
`hash(tuple) mod 8`); the model iterates in first-insertion order.  Each
concrete input below whose move outcome depends on this order is chosen
so that the two orders agree, so the computed moves match the real runs. -/
def initsOf (os : Status) (c : Char) : List Pos := firstDedup (os.posList c)

/-- The initiator loop of `_move`: for each position of the chosen color
not yet in `pos_in_chain`, run `_push_forward` from its own facing.  The
boolean records whether any call returned True (the source discards the
per-call return value; it is kept for stating properties). -/
def runInits (b : Board) (os : Status) (fuel : Nat) :
    List Pos → PState → Option (PState × Bool)
  | [], st => some (st, false)
  | p :: ps, st =>
    if p ∈ st.chain then runInits b os fuel ps st
    else
      match os.facingAt p with
      | none => none
      | some f =>
        match pushForward b os fuel p f st with
        | none => none
        | some (ok, st') =>
          match runInits b os fuel ps st' with
          | none => none
          | some (st'', anyT) => some (st'', ok || anyT)

/-- The copy loop of `_move`: every block whose position is not in
`pos_in_chain` is carried over unchanged (per color, per distinct
position, Python set iteration modelled in first-insertion order).  The
facing lookup cannot miss for a recorded position. -/
def copyUnmoved (os : Status) (chain : List Pos) : List Entry :=
  os.colorKeys.flatMap fun c =>
    (firstDedup (os.posList c)).filterMap fun p =>
      if p ∈ chain then none
      else (os.facingAt p).map fun f => ⟨c, p, f⟩

/-- Move resolution `_move(status, color)`: run all chains of the chosen color, then copy
the unmoved blocks.  `none` = an uncaught exception during resolution. -/
def move (b : Board) (os : Status) (c : Char) : Option Status :=
  match runInits b os (pfFuel os) (initsOf os c) PState.empty with
  | none => none
  | some (st, _) => some ⟨st.ns ++ copyUnmoved os st.chain⟩

/-- Iterated moves, for exhibiting concrete reachability. -/
def applyMoves (b : Board) (os : Status) : List Char → Option Status
  | [] => some os
  | c :: cs =>
    match move b os c with
    | none => none
    | some os' => applyMoves b os' cs

/-! ### The Search Engine: `solve` -/

/-- Outcome of `solve`: a returned path, the `UnsolvableError`, an uncaught
exception from move resolution, or exhausted modelling fuel. -/
inductive SolveRes where
  | found (path : List Char)
  | unsolvable
  | crash
  | fuelOut
deriving DecidableEq, Repr

/-- The successor loop of one dequeue step: for every color of the status,
compute the successor; unseen successors are appended to the queue (FIFO)
with their path and marked visited.  `none` = a move crashed. -/
def expand (b : Board) (os : Status) (path : List Char) :
    List Char → List (Status × List Char) → List Status →
    Option (List (Status × List Char) × List Status)
  | [], q, v => some (q, v)
  | c :: cs, q, v =>
    match move b os c with
    | none => none
    | some ns =>
      if v.any ns.eqB then expand b os path cs q v
      else expand b os path cs (q ++ [(ns, path ++ [c])]) (v ++ [ns])

/-- The BFS loop of `solve`, with the path map carried on the queue. -/
def solveLoop (b : Board) : Nat → List (Status × List Char) → List Status → SolveRes
  | 0, _, _ => .fuelOut
  | _ + 1, [], _ => .unsolvable
  | fuel + 1, (os, path) :: rest, visited =>
    if os.finished b then .found path
    else
      match expand b os path os.colorKeys rest visited with
      | none => .crash
      | some (q', v') => solveLoop b fuel q' v'

/-! ### Construction: `Solver.__init__` and `validate` -/

/-- A cell descriptor of the input grid (the decoded form of the textual
encoding; decoding itself is outside the core). -/
inductive Desc where
  | empty
  | block (d : Dir) (color : Char)
  | portal (name : String)
  | dest (color : Char)
  | obstacle
  | changer (d : Dir)
deriving DecidableEq, Repr

/-- Static-cell write `Board.set`: assert the cell is still `'.'` (cannot set twice), then
write it.  `none` = failed assert or IndexError on a too-long row. -/
def Board.setCell (b : Board) (i j : Nat) (c : Cell) : Option Board :=
  match b.grid.get? i with
  | none => none
  | some row =>
    match row.get? j with
    | none => none
    | some Cell.empty => some { b with grid := b.grid.set i (row.set j c) }
    | some _ => none

/-- Appending a portal cell to its name's list, new names at the end
(dict insertion order). -/
def portalAdd : List (String × List Pos) → String → Pos → List (String × List Pos)
  | [], n, p => [(n, [p])]
  | (m, ps) :: rest, n, p =>
    if m = n then (m, ps ++ [p]) :: rest else (m, ps) :: portalAdd rest n p

/-- Processing one grid descriptor in `Solver.__init__`'s double loop. -/
def processDesc (i j : Nat) (d : Desc) (b : Board) (st : Status) :
    Option (Board × Status) :=
  match d with
  | .empty => some (b, st)
  | .block dir c => some (b, st.set c ((i : Int), (j : Int)) dir)
  | .portal n =>
    (b.setCell i j (.portal n)).map fun b' =>
      ({ b' with portals := portalAdd b'.portals n ((i : Int), (j : Int)) }, st)
  | .dest c =>
    (b.setCell i j (.dest c)).map fun b' =>
      ({ b' with dests := b'.dests ++ [(c, ((i : Int), (j : Int)))] }, st)
  | .obstacle => (b.setCell i j .obstacle).map fun b' => (b', st)
  | .changer dir => (b.setCell i j (.changer dir)).map fun b' => (b', st)

/-- Inner loop over one row's descriptors. -/
def buildRow (i : Nat) : Nat → List Desc → Board × Status → Option (Board × Status)
  | _, [], bs => some bs
  | j, d :: ds, (b, st) =>
    match processDesc i j d b st with
    | none => none
    | some bs' => buildRow i (j + 1) ds bs'

/-- Outer loop over the rows. -/
def buildAll : Nat → List (List Desc) → Board × Status → Option (Board × Status)
  | _, [], bs => some bs
  | i, row :: rows, bs =>
    match buildRow i 0 row bs with
    | none => none
    | some bs' => buildAll (i + 1) rows bs'

/-- Validation `Solver.validate`: destination colors equal block colors as sets, and
per color the destination set and the position set have the same size. -/
def validate (b : Board) (st : Status) : Bool :=
  setEqB b.colorList st.colorKeys &&
  b.colorList.all fun c =>
    (firstDedup (b.destList c)).length = (firstDedup (st.posList c)).length

/-- Construction `Solver.__init__`: assert rows 0..4 have equal length (IndexError when
fewer than five rows), build an `n × n` board of `'.'` with `n` the number
of rows, process every descriptor, then assert `validate`. -/
def solverInit (g : List (List Desc)) : Option (Board × Status) :=
  match g.get? 0, g.get? 1, g.get? 2, g.get? 3, g.get? 4 with
  | some r0, some r1, some r2, some r3, some r4 =>
    if r0.length = r1.length ∧ r1.length = r2.length ∧
        r2.length = r3.length ∧ r3.length = r4.length then
      let n := g.length
      let b0 : Board := ⟨List.replicate n (List.replicate n .empty), [], []⟩
      match buildAll 0 g (b0, ⟨[]⟩) with
      | none => none
      | some (b, st) => if validate b st then some (b, st) else none
    else none
  | _, _, _, _, _ => none

/-- Solving from a decoded grid: construct, seed the queue and the
visited set with the initial status, and search. -/
def solve (g : List (List Desc)) (fuel : Nat) : Option SolveRes :=
  (solverInit g).map fun p => solveLoop p.1 fuel [(p.2, [])] [p.2]

/-! ### Spec-side notions -/

/-- The opposite cardinal direction. -/
def Dir.opposite : Dir → Dir
  | .N => .S
  | .S => .N
  | .E => .W
  | .W => .E

/-- Spec section 4.3, the per-link continuation rule: a same-color occupant
continues along its own recorded facing, rejected (`none`) when that facing
is exactly opposite the incoming push direction; a different-color occupant
is pushed along the incoming direction. -/
def linkContinuation (c oc : Char) (t fOcc : Dir) : Option Dir :=
  if oc = c then (if fOcc = t.opposite then none else some fOcc) else some t

/-- The Configuration abstraction of the data model: per color, the
distinct occupied coordinates each paired with the recorded facing there. -/
def Status.pairList (s : Status) (c : Char) : List (Pos × Option Dir) :=
  (firstDedup (s.posList c)).map fun p => (p, s.facingAt p)

/-! ### Concrete boards used by the claims -/

open Dir Desc in
/-- Spec Scenario 1 padded to the five rows construction requires: one
East-facing `R` two cells from its destination. -/
def plainGrid : List (List Desc) :=
  [[empty, empty, empty, empty, empty],
   [block E 'R', empty, dest 'R', empty, empty],
   [empty, empty, empty, empty, empty],
   [empty, empty, empty, empty, empty],
   [empty, empty, empty, empty, empty]]

open Dir Desc in
/-- A paired portal whose exit-adjacent cell lies past the east edge: the
only move of the only color reads `board[0][5]`. -/
def edgePortalGrid : List (List Desc) :=
  [[block E 'R', portal "A", empty, empty, portal "A"],
   [empty, empty, empty, empty, empty],
   [empty, empty, empty, empty, empty],
   [empty, empty, empty, empty, empty],
   [empty, empty, empty, empty, dest 'R']]

open Dir Desc in
/-- A board solvable in three `R` moves, carrying a second color `B` whose
own move teleports past the east edge; expanding the initial configuration
computes `B`'s successor and crashes. -/
def solvableCrashGrid : List (List Desc) :=
  [[empty, empty, block S 'R', empty, empty],
   [empty, empty, empty, empty, empty],
   [empty, empty, block E 'B', portal "A", portal "A"],
   [empty, empty, dest 'R', empty, empty],
   [empty, empty, dest 'B', empty, empty]]

open Dir Desc in
/-- Pushing `R` through portal `A` lands it on a cell of portal `B`. -/
def portalRestGrid : List (List Desc) :=
  [[block E 'R', portal "A", empty, portal "A", portal "B"],
   [empty, empty, empty, empty, empty],
   [dest 'R', empty, empty, empty, empty],
   [empty, empty, empty, empty, empty],
   [empty, empty, empty, empty, portal "B"]]

open Dir Desc in
/-- Two `R` blocks: the one at `(0,2)` is blocked by an obstacle, the one
at `(1,2)` pushes north into its cell. -/
def overwriteGrid : List (List Desc) :=
  [[empty, empty, block E 'R', obstacle, empty],
   [empty, empty, block N 'R', empty, empty],
   [empty, empty, empty, empty, empty],
   [empty, empty, empty, empty, empty],
   [dest 'R', dest 'R', empty, empty, empty]]

open Dir Desc in
/-- Two `R` blocks: the one at `(0,1)` faces the north edge (its chain
fails), the one at `(0,2)` pushes west into its cell.  The blocked block
is processed first under both set-iteration orders: it precedes in
first-insertion (row-major) order, and CPython 2's eight-slot hash order
also yields it first — `hash((0,1)) mod 8 = 0` against
`hash((0,2)) mod 8 = 5` — so the computed move matches the real run. -/
def mergeGrid : List (List Desc) :=
  [[empty, block N 'R', block W 'R', empty, empty],
   [empty, empty, empty, empty, empty],
   [empty, empty, empty, empty, empty],
   [empty, empty, empty, empty, empty],
   [empty, empty, empty, dest 'R', dest 'R']]

open Dir Desc in
/-- A 2 × 2 ring of mutually pushing same-color blocks. -/
def ringGrid : List (List Desc) :=
  [[block E 'R', block S 'R', empty, empty, empty],
   [block N 'R', block W 'R', empty, empty, empty],
   [empty, empty, empty, empty, empty],
   [dest 'R', dest 'R', dest 'R', dest 'R', empty],
   [empty, empty, empty, empty, empty]]

open Dir Desc in
/-- Portal name `A` occurs on exactly one cell; the block/destination
colors match. -/
def lonePortalGrid : List (List Desc) :=
  [[portal "A", empty, empty, empty, empty],
   [block E 'B', empty, empty, empty, empty],
   [dest 'B', empty, empty, empty, empty],
   [empty, empty, empty, empty, empty],
   [empty, empty, empty, empty, empty]]

open Dir Desc in
/-- A paired portal whose exit-adjacent cell lies past the south edge. -/
def southPortalGrid : List (List Desc) :=
  [[block S 'R', empty, empty, empty, empty],
   [portal "A", empty, empty, empty, empty],
   [empty, empty, empty, empty, empty],
   [empty, empty, empty, empty, empty],
   [portal "A", empty, empty, empty, dest 'R']]

open Dir Desc in
/-- A single block facing the north edge: its move is a no-op. -/
def stuckGrid : List (List Desc) :=
  [[block N 'R', empty, empty, empty, empty],
   [empty, empty, empty, empty, empty],
   [empty, empty, empty, empty, empty],
   [empty, empty, empty, empty, empty],
   [empty, empty, empty, empty, dest 'R']]

/-- The board and initial status a grid constructs (defaulting for grids
whose construction fails; every use below is on a succeeding grid). -/
def builtOf (g : List (List Desc)) : Board × Status :=
  (solverInit g).getD (⟨[], [], []⟩, ⟨[]⟩)

/-! ### Grid readings used to characterise construction -/

/-- The block-spawn records of one row, read off the descriptors. -/
def rowSpawns (i : Nat) : Nat → List Desc → List Entry
  | _, [] => []
  | j, Desc.block d c :: ds => ⟨c, ((i : Int), (j : Int)), d⟩ :: rowSpawns i (j + 1) ds
  | j, _ :: ds => rowSpawns i (j + 1) ds

/-- The destination records of one row, read off the descriptors. -/
def rowDests (i : Nat) : Nat → List Desc → List (Char × Pos)
  | _, [] => []
  | j, Desc.dest c :: ds => (c, ((i : Int), (j : Int))) :: rowDests i (j + 1) ds
  | j, _ :: ds => rowDests i (j + 1) ds

/-- All block-spawn records of a grid, row-major. -/
def gridSpawnEntries : Nat → List (List Desc) → List Entry
  | _, [] => []
  | i, row :: rows => rowSpawns i 0 row ++ gridSpawnEntries (i + 1) rows

/-- All destination records of a grid, row-major. -/
def gridDests : Nat → List (List Desc) → List (Char × Pos)
  | _, [] => []
  | i, row :: rows => rowDests i 0 row ++ gridDests (i + 1) rows

/-- The color check of `Solver.validate`, expressed directly on the grid:
the spawn and destination color sets coincide and each color has as many
(distinct) destination cells as (distinct) spawn positions. -/
def gridValid (g : List (List Desc)) : Bool :=
  validate ⟨[], gridDests 0 g, []⟩ ⟨gridSpawnEntries 0 g⟩

/-! ### Basic lemmas about the embedding -/

/-- The occupant color used where the position is known to be occupied. -/
def colorD (os : Status) (q : Pos) : Char := (os.colorAt q).getD '?'

/-- The original record of an occupied position: its color, coordinate and
recorded facing. -/
def origEntry (os : Status) (q : Pos) : Entry :=
  ⟨colorD os q, q, (os.facingAt q).getD .N⟩

theorem memColorPos_false (c : Char) (s : List Pos) : memColorPos c s = false := by
  induction s with
  | nil => rfl
  | cons a as ih => simpa [memColorPos, pyStrTupleEq, List.any] using ih

theorem mem_dedupAux [DecidableEq α] (l : List α) :
    ∀ seen x, x ∈ dedupAux seen l ↔ x ∈ l ∧ x ∉ seen := by
  induction l with
  | nil => simp [dedupAux]
  | cons a as ih =>
    intro seen x
    by_cases ha : a ∈ seen
    · rw [show dedupAux seen (a :: as) = dedupAux seen as from by
        simp [dedupAux, if_pos ha], ih]
      constructor
      · rintro ⟨hx, hs⟩
        exact ⟨List.mem_cons_of_mem _ hx, hs⟩
      · rintro ⟨hx, hs⟩
        rcases List.mem_cons.mp hx with rfl | hx
        · exact absurd ha hs
        · exact ⟨hx, hs⟩
    · rw [show dedupAux seen (a :: as) = a :: dedupAux (seen ++ [a]) as from by
        simp [dedupAux, if_neg ha]]
      simp only [List.mem_cons, ih, List.mem_append, List.mem_singleton]
      constructor
      · rintro (rfl | ⟨hx, hs⟩)
        · exact ⟨Or.inl rfl, ha⟩
        · push_neg at hs
          exact ⟨Or.inr hx, hs.1⟩
      · rintro ⟨hx, hs⟩
        rcases hx with rfl | hx
        · exact Or.inl rfl
        · by_cases hxa : x = a
          · exact Or.inl hxa
          · exact Or.inr ⟨hx, by simp [hs, hxa]⟩

theorem mem_firstDedup [DecidableEq α] {l : List α} {x : α} :
    x ∈ firstDedup l ↔ x ∈ l := by
  simp [firstDedup, mem_dedupAux]

theorem nodup_dedupAux [DecidableEq α] (l : List α) :
    ∀ seen, (dedupAux seen l).Nodup := by
  induction l with
  | nil => intro seen; simp [dedupAux]
  | cons a as ih =>
    intro seen
    by_cases ha : a ∈ seen
    · rw [show dedupAux seen (a :: as) = dedupAux seen as from by
        simp [dedupAux, if_pos ha]]
      exact ih seen
    · rw [show dedupAux seen (a :: as) = a :: dedupAux (seen ++ [a]) as from by
        simp [dedupAux, if_neg ha]]
      refine List.nodup_cons.mpr ⟨fun hmem => ?_, ih _⟩
      simp [mem_dedupAux] at hmem

theorem nodup_firstDedup [DecidableEq α] (l : List α) : (firstDedup l).Nodup :=
  nodup_dedupAux l []

theorem mem_posList_iff {os : Status} {c : Char} {p : Pos} :
    p ∈ os.posList c ↔ ∃ e ∈ os.entries, e.color = c ∧ e.pos = p := by
  simp only [Status.posList, List.mem_filterMap]
  constructor
  · rintro ⟨e, he, hfe⟩
    by_cases hc : e.color = c
    · simp only [if_pos hc, Option.some.injEq] at hfe
      exact ⟨e, he, hc, hfe⟩
    · simp [if_neg hc] at hfe
  · rintro ⟨e, he, hc, hp⟩
    exact ⟨e, he, by simp [hc, hp]⟩

theorem mem_colorKeys_iff {os : Status} {c : Char} :
    c ∈ os.colorKeys ↔ ∃ e ∈ os.entries, e.color = c := by
  simp [Status.colorKeys, mem_firstDedup]

theorem facingAt_isSome {os : Status} {p : Pos}
    (h : ∃ e ∈ os.entries, e.pos = p) : (os.facingAt p).isSome := by
  rcases h with ⟨e, he, hp⟩
  have hmem : e ∈ os.entries.filter fun e => e.pos = p :=
    List.mem_filter.mpr ⟨he, by simp [hp]⟩
  have hne : (os.entries.filter fun e => e.pos = p) ≠ [] :=
    List.ne_nil_of_mem hmem
  have hs : ((os.entries.filter fun e => e.pos = p).getLast?).isSome :=
    List.getLast?_isSome.mpr hne
  rcases Option.isSome_iff_exists.mp hs with ⟨x, hx⟩
  simp [Status.facingAt, hx]

theorem colorAt_isSome_iff {os : Status} {p : Pos} :
    (os.colorAt p).isSome ↔ ∃ e ∈ os.entries, e.pos = p := by
  constructor
  · intro h
    rcases Option.isSome_iff_exists.mp h with ⟨c, hc⟩
    have := List.find?_some hc
    have hmem : p ∈ os.posList c := by simpa using this
    rcases mem_posList_iff.mp hmem with ⟨e, he, _, hp⟩
    exact ⟨e, he, hp⟩
  · rintro ⟨e, he, hp⟩
    have hkey : e.color ∈ os.colorKeys := mem_colorKeys_iff.mpr ⟨e, he, rfl⟩
    have hplist : p ∈ os.posList e.color := mem_posList_iff.mpr ⟨e, he, rfl, hp⟩
    exact List.find?_isSome.mpr ⟨e.color, hkey, by simpa using hplist⟩

theorem facingAt_isSome_of_colorAt {os : Status} {p : Pos}
    (h : (os.colorAt p).isSome) : (os.facingAt p).isSome :=
  facingAt_isSome (colorAt_isSome_iff.mp h)

/-- Action of one `_push_forward` call on the shared state: the chain grows
by a list `ps` of fresh occupied positions (the frames of the call), the
new status gains one entry per frame — with the frame's own color — and on
a failed call every frame records exactly its original color, coordinate
and facing. -/
theorem pushForward_spec {b : Board} {os : Status} :
    ∀ (fuel : Nat) (p : Pos) (t : Dir) (st : PState) (ok : Bool) (st' : PState),
      pushForward b os fuel p t st = some (ok, st') →
      ∃ ps es,
        st'.chain = st.chain ++ ps ∧
        st'.ns = st.ns ++ es ∧
        (∀ q ∈ ps, q ∉ st.chain ∧ (os.colorAt q).isSome) ∧
        ps.Nodup ∧
        es.map Entry.color = ps.reverse.map (colorD os) ∧
        (ok = false → es = ps.reverse.map (origEntry os)) := by
  intro fuel
  induction fuel with
  | zero => intro p t st ok st' h; simp [pushForward] at h
  | succ fuel ih =>
    intro p t st ok st' h
    by_cases hmem : p ∈ st.chain
    · rw [show pushForward b os (fuel + 1) p t st = some (true, st) from by
        simp [pushForward, hmem]] at h
      simp only [Option.some.injEq, Prod.mk.injEq] at h
      obtain ⟨hok, hst⟩ := h
      subst hok; subst hst
      exact ⟨[], [], by simp, by simp, by simp, by simp, by simp, by simp⟩
    · cases hc : os.colorAt p with
      | none => simp [pushForward, hmem, hc] at h
      | some color =>
      cases hf : os.facingAt p with
      | none => simp [pushForward, hmem, hc, hf] at h
      | some facing =>
      cases hrt : resolveTarget b p t with
      | none => simp [pushForward, hmem, hc, hf, hrt] at h
      | some tv =>
      cases tv with
      | none =>
        rw [show pushForward b os (fuel + 1) p t st =
            some (false, PState.addEntry { st with chain := st.chain ++ [p] }
              color p facing) from by
          simp [pushForward, hmem, hc, hf, hrt]] at h
        simp only [Option.some.injEq, Prod.mk.injEq] at h
        obtain ⟨hok, hst⟩ := h
        subst hok; subst hst
        refine ⟨[p], [⟨color, p, facing⟩], by simp [PState.addEntry],
          by simp [PState.addEntry], ?_, by simp, ?_, ?_⟩
        · intro q hq
          rcases List.mem_singleton.mp hq with rfl
          exact ⟨hmem, by simp [hc]⟩
        · simp [colorD, hc]
        · intro _; simp [origEntry, colorD, hc, hf]
      | some target =>
      cases hoc : os.colorAt target with
      | none =>
        rw [show pushForward b os (fuel + 1) p t st =
            pfBlockedOrFree b { st with chain := st.chain ++ [p] }
              color p facing target from by
          simp [pushForward, hmem, hc, hf, hrt, hoc]] at h
        cases hob : b.isObstacle target with
        | none => simp [pfBlockedOrFree, hob] at h
        | some bo =>
        cases bo with
        | true =>
          rw [show pfBlockedOrFree b { st with chain := st.chain ++ [p] }
              color p facing target =
              some (false, PState.addEntry { st with chain := st.chain ++ [p] }
                color p facing) from by
            simp [pfBlockedOrFree, hob]] at h
          simp only [Option.some.injEq, Prod.mk.injEq] at h
          obtain ⟨hok, hst⟩ := h
          subst hok; subst hst
          refine ⟨[p], [⟨color, p, facing⟩], by simp [PState.addEntry],
            by simp [PState.addEntry], ?_, by simp, ?_, ?_⟩
          · intro q hq
            rcases List.mem_singleton.mp hq with rfl
            exact ⟨hmem, by simp [hc]⟩
          · simp [colorD, hc]
          · intro _; simp [origEntry, colorD, hc, hf]
        | false =>
          cases hch : b.facingChangeAt target with
          | none => simp [pfBlockedOrFree, pfAdvance, hob, hch] at h
          | some ov =>
            rw [show pfBlockedOrFree b { st with chain := st.chain ++ [p] }
                color p facing target =
                some (true,
                  { PState.addEntry { st with chain := st.chain ++ [p] }
                      color target (ov.getD facing) with
                    pushed := st.pushed ++ [p] }) from by
              simp [pfBlockedOrFree, pfAdvance, hob, hch, PState.addEntry]] at h
            simp only [Option.some.injEq, Prod.mk.injEq] at h
            obtain ⟨hok, hst⟩ := h
            subst hok; subst hst
            refine ⟨[p], [⟨color, target, ov.getD facing⟩],
              by simp [PState.addEntry], by simp [PState.addEntry], ?_,
              by simp, ?_, by simp⟩
            · intro q hq
              rcases List.mem_singleton.mp hq with rfl
              exact ⟨hmem, by simp [hc]⟩
            · simp [colorD, hc]
      | some oc =>
        have hmcf := memColorPos_false oc (st.pushed)
        cases hnt : (if oc = color then os.facingAt target else some t) with
        | none =>
          simp [pushForward, hmem, hc, hf, hrt, hoc, hmcf, hnt] at h
        | some nt =>
        by_cases hopp : (vel t).1 + (vel nt).1 = 0 ∧ (vel t).2 + (vel nt).2 = 0
        · rw [show pushForward b os (fuel + 1) p t st =
              some (false, PState.addEntry { st with chain := st.chain ++ [p] }
                color p facing) from by
            simp [pushForward, hmem, hc, hf, hrt, hoc, hmcf, hnt, hopp]] at h
          simp only [Option.some.injEq, Prod.mk.injEq] at h
          obtain ⟨hok, hst⟩ := h
          subst hok; subst hst
          refine ⟨[p], [⟨color, p, facing⟩], by simp [PState.addEntry],
            by simp [PState.addEntry], ?_, by simp, ?_, ?_⟩
          · intro q hq
            rcases List.mem_singleton.mp hq with rfl
            exact ⟨hmem, by simp [hc]⟩
          · simp [colorD, hc]
          · intro _; simp [origEntry, colorD, hc, hf]
        · cases hrec : pushForward b os fuel target nt
              { st with chain := st.chain ++ [p] } with
          | none =>
            simp [pushForward, hmem, hc, hf, hrt, hoc, hmcf, hnt, hopp, hrec] at h
          | some pr =>
          obtain ⟨ok₂, st₂⟩ := pr
          obtain ⟨ps₂, es₂, hchain₂, hns₂, hfresh₂, hnd₂, hcol₂, hfail₂⟩ :=
            ih target nt { st with chain := st.chain ++ [p] } ok₂ st₂ hrec
          have hfresh₂' : ∀ q ∈ ps₂, (q ∉ st.chain ∧ q ≠ p) ∧ (os.colorAt q).isSome := by
            intro q hq
            obtain ⟨hnc, hsome⟩ := hfresh₂ q hq
            simp only [List.mem_append, List.mem_singleton] at hnc
            push_neg at hnc
            exact ⟨⟨hnc.1, hnc.2⟩, hsome⟩
          cases ok₂ with
          | false =>
            rw [show pushForward b os (fuel + 1) p t st =
                some (false, PState.addEntry st₂ color p facing) from by
              simp [pushForward, hmem, hc, hf, hrt, hoc, hmcf, hnt, hopp, hrec]] at h
            simp only [Option.some.injEq, Prod.mk.injEq] at h
            obtain ⟨hok, hst⟩ := h
            subst hok; subst hst
            refine ⟨p :: ps₂, es₂ ++ [⟨color, p, facing⟩], ?_, ?_, ?_, ?_, ?_, ?_⟩
            · simp [PState.addEntry, hchain₂]
            · simp [PState.addEntry, hns₂]
            · intro q hq
              rcases List.mem_cons.mp hq with rfl | hq
              · exact ⟨hmem, by simp [hc]⟩
              · exact ⟨(hfresh₂' q hq).1.1, (hfresh₂' q hq).2⟩
            · refine List.nodup_cons.mpr ⟨fun hp => ?_, hnd₂⟩
              exact (hfresh₂' p hp).1.2 rfl
            · simp [hcol₂, colorD, hc]
            · intro _
              simp [hfail₂ rfl, origEntry, colorD, hc, hf]
          | true =>
            cases hch : b.facingChangeAt target with
            | none =>
              simp [pushForward, pfAdvance, hmem, hc, hf, hrt, hoc, hmcf, hnt,
                hopp, hrec, hch] at h
            | some ov =>
              rw [show pushForward b os (fuel + 1) p t st =
                  some (true,
                    { PState.addEntry st₂ color target (ov.getD facing) with
                      pushed := st₂.pushed ++ [p] }) from by
                simp [pushForward, pfAdvance, hmem, hc, hf, hrt, hoc, hmcf, hnt,
                  hopp, hrec, hch, PState.addEntry]] at h
              simp only [Option.some.injEq, Prod.mk.injEq] at h
              obtain ⟨hok, hst⟩ := h
              subst hok; subst hst
              refine ⟨p :: ps₂, es₂ ++ [⟨color, target, ov.getD facing⟩],
                ?_, ?_, ?_, ?_, ?_, by simp⟩
              · simp [PState.addEntry, hchain₂]
              · simp [PState.addEntry, hns₂]
              · intro q hq
                rcases List.mem_cons.mp hq with rfl | hq
                · exact ⟨hmem, by simp [hc]⟩
                · exact ⟨(hfresh₂' q hq).1.1, (hfresh₂' q hq).2⟩
              · refine List.nodup_cons.mpr ⟨fun hp => ?_, hnd₂⟩
                exact (hfresh₂' p hp).1.2 rfl
              · simp [hcol₂, colorD, hc]

theorem find?_eq_of_unique {α} (p : α → Bool) :
    ∀ (l : List α) (a : α), a ∈ l → p a → (∀ x ∈ l, p x → x = a) →
      l.find? p = some a := by
  intro l
  induction l with
  | nil => intro a ha _ _; cases ha
  | cons x xs ih =>
    intro a ha hpa huniq
    by_cases hx : p x
    · have hxa : x = a := huniq x (.head _) hx
      subst hxa
      simp [List.find?, hx]
    · have hax : a ∈ xs := by
        rcases List.mem_cons.mp ha with rfl | h
        · exact absurd hpa hx
        · exact h
      simp only [List.find?]
      rw [show p x = false from by simpa using hx]
      exact ih a hax hpa fun y hy hpy => huniq y (.tail _ hy) hpy

theorem getLast?_eq_of_all {α} :
    ∀ (l : List α) (a : α), a ∈ l → (∀ x ∈ l, x = a) → l.getLast? = some a := by
  intro l
  induction l with
  | nil => intro a ha; cases ha
  | cons x xs ih =>
    intro a _ hall
    cases xs with
    | nil => simp [hall x (.head _)]
    | cons y ys =>
      rw [List.getLast?_cons_cons]
      exact ih a (by rw [hall y (.tail _ (.head _))]; exact .head _)
        fun z hz => hall z (.tail _ hz)

/-- With pairwise-distinct recorded positions, the entry at a position is
unique. -/
theorem entry_unique {os : Status} (hnd : os.allPositions.Nodup)
    {e1 e2 : Entry} (h1 : e1 ∈ os.entries) (h2 : e2 ∈ os.entries)
    (hp : e1.pos = e2.pos) : e1 = e2 :=
  List.inj_on_of_nodup_map hnd h1 h2 hp

theorem colorAt_eq_of_entry {os : Status} (hnd : os.allPositions.Nodup)
    {e : Entry} (he : e ∈ os.entries) : os.colorAt e.pos = some e.color := by
  refine find?_eq_of_unique _ _ _ (mem_colorKeys_iff.mpr ⟨e, he, rfl⟩)
    (by simpa using mem_posList_iff.mpr ⟨e, he, rfl, rfl⟩) ?_
  intro c _ hc
  have : e.pos ∈ os.posList c := by simpa using hc
  rcases mem_posList_iff.mp this with ⟨e', he', hc', hp'⟩
  rw [← hc', entry_unique hnd he he' hp'.symm]

theorem facingAt_eq_of_entry {os : Status} (hnd : os.allPositions.Nodup)
    {e : Entry} (he : e ∈ os.entries) : os.facingAt e.pos = some e.dir := by
  have hmem : e ∈ os.entries.filter fun x => x.pos = e.pos :=
    List.mem_filter.mpr ⟨he, by simp⟩
  have hall : ∀ x ∈ os.entries.filter fun x => x.pos = e.pos, x = e := by
    intro x hx
    have hx' := List.mem_filter.mp hx
    exact entry_unique hnd hx'.1 he (by simpa using hx'.2)
  rw [Status.facingAt, getLast?_eq_of_all _ e hmem hall]
  rfl

theorem origEntry_eq_of_entry {os : Status} (hnd : os.allPositions.Nodup)
    {e : Entry} (he : e ∈ os.entries) : origEntry os e.pos = e := by
  rw [origEntry, colorD, colorAt_eq_of_entry hnd he, facingAt_eq_of_entry hnd he]
  rfl

theorem posList_eq_map_filter (os : Status) (c : Char) :
    os.posList c = (os.entries.filter fun e => e.color = c).map (·.pos) := by
  rw [Status.posList]
  induction os.entries with
  | nil => rfl
  | cons e es ih =>
    by_cases hc : e.color = c
    · simp [hc, ih]
    · simp [hc, ih]

theorem posList_nodup {os : Status} (hnd : os.allPositions.Nodup) (c : Char) :
    (os.posList c).Nodup := by
  rw [posList_eq_map_filter]
  have hsub : List.Sublist
      ((os.entries.filter fun e => e.color = c).map (·.pos))
      (os.entries.map (·.pos)) :=
    List.Sublist.map _ (List.filter_sublist _)
  exact hnd.sublist hsub

theorem dedupAux_eq_self [DecidableEq α] :
    ∀ (l : List α) (seen : List α), l.Nodup → (∀ x ∈ l, x ∉ seen) →
      dedupAux seen l = l := by
  intro l
  induction l with
  | nil => intro seen _ _; rfl
  | cons a as ih =>
    intro seen hnd hdisj
    have ha : a ∉ seen := hdisj a (.head _)
    rw [show dedupAux seen (a :: as) = a :: dedupAux (seen ++ [a]) as from by
      simp [dedupAux, if_neg ha]]
    rw [ih (seen ++ [a]) (List.nodup_cons.mp hnd).2]
    intro x hx
    simp only [List.mem_append, List.mem_singleton]
    push_neg
    exact ⟨hdisj x (.tail _ hx), fun hxa =>
      (List.nodup_cons.mp hnd).1 (hxa ▸ hx)⟩

theorem firstDedup_eq_self [DecidableEq α] {l : List α} (h : l.Nodup) :
    firstDedup l = l :=
  dedupAux_eq_self l [] h (by simp)

/-- The source's velocity-sum test recognises exactly the opposite
direction. -/
theorem vel_sum_zero_iff (t d : Dir) :
    ((vel t).1 + (vel d).1 = 0 ∧ (vel t).2 + (vel d).2 = 0) ↔ d = t.opposite := by
  cases t <;> cases d <;> decide

/-- Action of the initiator loop of `_move` on the shared state: the chain
gains a block of fresh occupied positions, the new status one entry per
chained position with the matching color; when no chain succeeded, the
entries are exactly the original records of the chained positions. -/
theorem runInits_spec {b : Board} {os : Status} (fuel : Nat) :
    ∀ (l : List Pos) (st stF : PState) (anyT : Bool),
      runInits b os fuel l st = some (stF, anyT) →
      ∃ ps es, stF.chain = st.chain ++ ps ∧ stF.ns = st.ns ++ es ∧
        (∀ q ∈ ps, q ∉ st.chain ∧ (os.colorAt q).isSome) ∧ ps.Nodup ∧
        (es.map Entry.color).Perm (ps.map (colorD os)) ∧
        (anyT = false → ∀ e, e ∈ es ↔ ∃ q ∈ ps, e = origEntry os q) := by
  intro l
  induction l with
  | nil =>
    intro st stF anyT h
    rw [show runInits b os fuel [] st = some (st, false) from rfl] at h
    simp only [Option.some.injEq, Prod.mk.injEq] at h
    obtain ⟨h1, h2⟩ := h
    subst h1; subst h2
    exact ⟨[], [], by simp, by simp, by simp, by simp, by simp, by simp⟩
  | cons p l ih =>
    intro st stF anyT h
    by_cases hmem : p ∈ st.chain
    · rw [show runInits b os fuel (p :: l) st = runInits b os fuel l st from by
        simp [runInits, hmem]] at h
      exact ih st stF anyT h
    · cases hf : os.facingAt p with
      | none => simp [runInits, hmem, hf] at h
      | some f =>
      cases hpf : pushForward b os fuel p f st with
      | none => simp [runInits, hmem, hf, hpf] at h
      | some pr1 =>
      obtain ⟨ok₁, st₁⟩ := pr1
      cases hrest : runInits b os fuel l st₁ with
      | none => simp [runInits, hmem, hf, hpf, hrest] at h
      | some pr2 =>
      obtain ⟨st₂, anyT'⟩ := pr2
      rw [show runInits b os fuel (p :: l) st = some (st₂, ok₁ || anyT') from by
        simp [runInits, hmem, hf, hpf, hrest]] at h
      simp only [Option.some.injEq, Prod.mk.injEq] at h
      obtain ⟨h1, h2⟩ := h
      subst h1
      obtain ⟨ps₁, es₁, hchain₁, hns₁, hfresh₁, hnd₁, hcol₁, hfail₁⟩ :=
        pushForward_spec fuel p f st ok₁ st₁ hpf
      obtain ⟨ps₂, es₂, hchain₂, hns₂, hfresh₂, hnd₂, hcol₂, hmm₂⟩ :=
        ih st₁ st₂ anyT' hrest
      refine ⟨ps₁ ++ ps₂, es₁ ++ es₂, ?_, ?_, ?_, ?_, ?_, ?_⟩
      · rw [hchain₂, hchain₁, List.append_assoc]
      · rw [hns₂, hns₁, List.append_assoc]
      · intro q hq
        rcases List.mem_append.mp hq with hq | hq
        · exact hfresh₁ q hq
        · have := hfresh₂ q hq
          rw [hchain₁] at this
          simp only [List.mem_append] at this
          exact ⟨fun hqc => this.1 (Or.inl hqc), this.2⟩
      · refine List.Nodup.append hnd₁ hnd₂ ?_
        intro a ha₁ ha₂
        have := (hfresh₂ a ha₂).1
        rw [hchain₁] at this
        exact this (List.mem_append.mpr (Or.inr ha₁))
      · rw [List.map_append, List.map_append]
        exact ((List.reverse_perm ps₁).map (colorD os) |>.symm.trans
          (hcol₁ ▸ List.Perm.refl _)).symm.append (hcol₂)
      · intro hT
        subst h2
        rcases Bool.or_eq_false_iff.mp hT with ⟨hok₁, hanyT'⟩
        intro e
        simp only [List.mem_append, hmm₂ hanyT', hfail₁ hok₁]
        constructor
        · rintro (he | ⟨q, hq, rfl⟩)
          · rcases List.mem_map.mp he with ⟨q, hq, rfl⟩
            exact ⟨q, Or.inl (List.mem_reverse.mp hq), rfl⟩
          · exact ⟨q, Or.inr hq, rfl⟩
        · rintro ⟨q, hq | hq, rfl⟩
          · exact Or.inl (List.mem_map_of_mem _ (List.mem_reverse.mpr hq))
          · exact Or.inr ⟨q, hq, rfl⟩

/-- Membership in the copy loop's output, for a status with
pairwise-distinct positions: exactly the original entries whose position
is not in the chain. -/
theorem copy_mem {os : Status} (hnd : os.allPositions.Nodup)
    (chain : List Pos) (e : Entry) :
    e ∈ copyUnmoved os chain ↔ e ∈ os.entries ∧ e.pos ∉ chain := by
  rw [copyUnmoved, List.mem_flatMap]
  constructor
  · rintro ⟨c, _, hblock⟩
    rcases List.mem_filterMap.mp hblock with ⟨p, hp, hres⟩
    by_cases hchain : p ∈ chain
    · simp [hchain] at hres
    · simp only [hchain, if_neg, ite_false] at hres
      rcases Option.map_eq_some'.mp hres with ⟨f, hf, he⟩
      have hp' : p ∈ os.posList c := mem_firstDedup.mp hp
      rcases mem_posList_iff.mp hp' with ⟨e', he', hc', hp''⟩
      have hfe : os.facingAt p = some e'.dir := by
        rw [← hp'']; exact facingAt_eq_of_entry hnd he'
      rw [hfe] at hf
      subst he
      have : (⟨c, p, f⟩ : Entry) = e' := by
        cases hf
        rw [← hc', ← hp'']
      rw [this]
      exact ⟨he', by rw [← hp''] at hchain; exact hchain⟩
  · rintro ⟨he, hchain⟩
    refine ⟨e.color, mem_colorKeys_iff.mpr ⟨e, he, rfl⟩, ?_⟩
    refine List.mem_filterMap.mpr ⟨e.pos,
      mem_firstDedup.mpr (mem_posList_iff.mpr ⟨e, he, rfl, rfl⟩), ?_⟩
    rw [if_neg hchain, facingAt_eq_of_entry hnd he]
    rfl

/-! ### Theorems -/

/-- Sanity check, spec Scenario 1: a lone East-facing `R` two cells from
its destination is solved by the two-move path `RR`. -/
theorem scenario1_solved : solve plainGrid 100 = some (.found ['R', 'R']) := rfl

/-- Claim C1 (code bug): `solvableCrashGrid` constructs successfully and
is solvable — three `R` moves reach a terminal Configuration — yet `solve`
does not return a path at all: expanding the initial Configuration
computes color `B`'s successor, whose chain teleports past the paired
portal to the off-board cell `(2,5)`, and the un-rechecked obstacle lookup
there raises an uncaught IndexError. -/
theorem solve_crashes_on_solvable_board :
    solve solvableCrashGrid 100 = some .crash ∧
    ((solverInit solvableCrashGrid).bind fun p =>
      (applyMoves p.1 p.2 ['R', 'R', 'R']).map (·.finished p.1)) = some true :=
  ⟨rfl, rfl⟩

/-- Claim C2 (code bug): on `edgePortalGrid` no terminal Configuration is
reachable (the initial Configuration is not terminal and its only
successor computation errs), yet `solve` does not report Unsolvable: the
teleported target `(0,5)` is read without a renewed bounds check and an
uncaught IndexError escapes instead. -/
theorem solve_crashes_instead_of_unsolvable :
    solve edgePortalGrid 100 = some .crash ∧
    ((solverInit edgePortalGrid).map fun p => p.2.finished p.1) = some false :=
  ⟨rfl, rfl⟩

/-- Claim C8 (code bug): on `southPortalGrid`, validly constructed, the
Move Resolver is not total: resolving color `R` teleports the target one
step past the paired portal to `(5,0)` and the obstacle lookup there is
out of bounds, raising an uncaught IndexError. -/
theorem move_resolution_crashes :
    ((solverInit southPortalGrid).map fun p => move p.1 p.2 'R') = some none :=
  rfl

/-- Claim C3, counterexample: on `portalRestGrid` the `R` block is pushed
into portal `A` and comes to rest on `(0,4)` — a cell of portal `B` — so a
block can end a move on a portal cell. -/
theorem block_rests_on_portal_cell :
    move (builtOf portalRestGrid).1 (builtOf portalRestGrid).2 'R' =
      some ⟨[⟨'R', (0, 4), .E⟩]⟩ ∧
    (builtOf portalRestGrid).1.isPortal (0, 4) = some true :=
  ⟨rfl, rfl⟩

/-- Claim C4, counterexample: on `mergeGrid` the chain of the initiator
at `(0,1)` fails against the north board edge, yet the successor
Configuration does not show that member with its original facing `N`: the
second chain advances the block from `(0,2)` onto the failed member's
cell (the shared chain set treats the visited cell as vacatable), and the
recorded facing at `(0,1)` becomes `W`.  The blocked initiator runs first
under the model's order and under CPython 2's set order alike. -/
theorem failed_chain_member_overwritten :
    pushForward (builtOf mergeGrid).1 (builtOf mergeGrid).2
        (pfFuel (builtOf mergeGrid).2) (0, 1) .N PState.empty =
      some (false, ⟨[⟨'R', (0, 1), .N⟩], [(0, 1)], []⟩) ∧
    (move (builtOf mergeGrid).1 (builtOf mergeGrid).2 'R').map
        (fun ns => ns.pairList 'R') = some [((0, 1), some .W)] :=
  ⟨rfl, rfl⟩

/-- Claim C7, counterexample: construction succeeds on `lonePortalGrid`
although portal name `A` pairs exactly one cell, not two: `Solver.__init__`
never validates portal pairing. -/
theorem unpaired_portal_accepted :
    (solverInit lonePortalGrid).map (fun p => p.1.portals) =
      some [("A", [(0, 0)])] :=
  rfl

theorem setEqB_iff [DecidableEq α] {a b : List α} :
    setEqB a b = true ↔ (∀ x ∈ a, x ∈ b) ∧ (∀ x ∈ b, x ∈ a) := by
  simp [setEqB, List.all_eq_true]

theorem countP_or_disjoint {α} (p q : α → Bool) :
    ∀ (l : List α), (∀ x ∈ l, ¬(p x = true ∧ q x = true)) →
      l.countP (fun x => p x || q x) = l.countP p + l.countP q := by
  intro l
  induction l with
  | nil => intro _; simp
  | cons a l ih =>
    intro hdisj
    rw [List.countP_cons, List.countP_cons, List.countP_cons,
      ih fun x hx => hdisj x (.tail _ hx)]
    by_cases hp : p a
    · have hq : ¬ q a = true := fun hq => hdisj a (.head _) ⟨hp, hq⟩
      simp [hp, hq]
      omega
    · by_cases hq : q a = true
      · simp [hp, hq]
        omega
      · simp [hp, hq]

/-- The two-sided count of shared members of two duplicate-free lists. -/
theorem countP_mem_comm [DecidableEq α] :
    ∀ (l1 l2 : List α), l1.Nodup → l2.Nodup →
      l1.countP (fun x => x ∈ l2) = l2.countP (fun x => x ∈ l1) := by
  intro l1
  induction l1 with
  | nil =>
    intro l2 _ _
    rw [List.countP_nil, Eq.comm, List.countP_eq_zero]
    intro a _
    simp
  | cons a l1 ih =>
    intro l2 hnd1 hnd2
    obtain ⟨ha, hnd1'⟩ := List.nodup_cons.mp hnd1
    have hsplit : l2.countP (fun x => x ∈ a :: l1) =
        l2.countP (fun x => x = a) + l2.countP (fun x => x ∈ l1) := by
      rw [← countP_or_disjoint (fun x => x = a) (fun x => x ∈ l1) l2 ?_]
      · refine List.countP_congr fun x _ => ?_
        by_cases hxa : x = a <;> by_cases hxl : x ∈ l1 <;> simp [hxa, hxl]
      · intro x _ ⟨h1, h2⟩
        simp only [decide_eq_true_eq] at h1 h2
        exact ha (h1 ▸ h2)
    have hca : l2.countP (fun x => x = a) = if a ∈ l2 then 1 else 0 := by
      by_cases hal2 : a ∈ l2
      · rw [if_pos hal2]
        have hle : l2.countP (fun x => x = a) ≤ 1 := by
          have := List.nodup_iff_count_le_one.mp hnd2 a
          rw [List.count] at this
          refine le_trans (le_of_eq (List.countP_congr fun x _ => ?_)) this
          by_cases hxa : x = a <;> simp [hxa]
        have hge : 1 ≤ l2.countP (fun x => x = a) := by
          have : 0 < l2.countP (fun x => x = a) :=
            List.countP_pos_iff.mpr ⟨a, hal2, by simp⟩
          omega
        omega
      · rw [if_neg hal2, List.countP_eq_zero]
        intro x hx
        simp only [decide_eq_true_eq]
        rintro rfl
        exact hal2 hx
    rw [List.countP_cons, hsplit, hca, ih l2 hnd1' hnd2]
    by_cases hal2 : a ∈ l2 <;> simp [hal2] <;> omega

/-- The inner construction loop succeeds on a row whose remaining cells
are empty, appending exactly the row's spawn and destination records and
touching no other row of the grid. -/
theorem buildRow_ok (i : Nat) :
    ∀ (ds : List Desc) (j : Nat) (b : Board) (st : Status) (row : List Cell),
      b.grid.get? i = some row →
      (∀ k, j ≤ k → k < j + ds.length → row.get? k = some Cell.empty) →
      ∃ b' st' row',
        buildRow i j ds (b, st) = some (b', st') ∧
        st'.entries = st.entries ++ rowSpawns i j ds ∧
        b'.dests = b.dests ++ rowDests i j ds ∧
        b'.grid.length = b.grid.length ∧
        (∀ i', i' ≠ i → b'.grid.get? i' = b.grid.get? i') ∧
        b'.grid.get? i = some row' ∧ row'.length = row.length := by
  intro ds
  induction ds with
  | nil =>
    intro j b st row hrow _
    exact ⟨b, st, row, rfl, by simp [rowSpawns], by simp [rowDests], rfl,
      fun _ _ => rfl, hrow, rfl⟩
  | cons d ds ih =>
    intro j b st row hrow hempty
    have hj : row.get? j = some Cell.empty :=
      hempty j le_rfl (by simp)
    have hjlt : j < row.length := by
      have := List.get?_eq_some.mp hj
      exact this.choose
    have hilt : i < b.grid.length := by
      have := List.get?_eq_some.mp hrow
      exact this.choose
    -- a static cell is written through `Board.setCell`
    have hset : ∀ cell, b.setCell i j cell =
        some { b with grid := b.grid.set i (row.set j cell) } := by
      intro cell
      rw [Board.setCell, hrow]
      simp only []
      rw [hj]
    have hsetgrid : ∀ cell,
        (b.grid.set i (row.set j cell)).get? i = some (row.set j cell) := by
      intro cell
      rw [List.get?_set_eq]
      simp [hilt]
    have hsetempty : ∀ cell k, j + 1 ≤ k → k < j + 1 + ds.length →
        (row.set j cell).get? k = some Cell.empty := by
      intro cell k hk1 hk2
      rw [List.get?_set_ne _ _ (by omega)]
      exact hempty k (by omega) (by simp only [List.length_cons]; omega)
    have hsetlen : ∀ cell, (row.set j cell).length = row.length :=
      fun cell => List.length_set ..
    cases d with
    | empty =>
      obtain ⟨b', st', row', hbr, hst, hbd, hbl, hother, hri, hrl⟩ :=
        ih (j + 1) b st row hrow (by
          intro k hk1 hk2
          exact hempty k (by omega) (by simp only [List.length_cons]; omega))
      exact ⟨b', st', row', by rw [buildRow, processDesc]; exact hbr,
        by rw [hst]; rfl, by rw [hbd]; rfl, hbl, hother, hri, hrl⟩
    | block dir c =>
      obtain ⟨b', st', row', hbr, hst, hbd, hbl, hother, hri, hrl⟩ :=
        ih (j + 1) b (st.set c ((i : Int), (j : Int)) dir) row hrow (by
          intro k hk1 hk2
          exact hempty k (by omega) (by simp only [List.length_cons]; omega))
      refine ⟨b', st', row', by rw [buildRow, processDesc]; exact hbr,
        ?_, by rw [hbd]; rfl, hbl, hother, hri, hrl⟩
      rw [hst, Status.set]
      simp [rowSpawns]
    | portal nm =>
      obtain ⟨b', st', row', hbr, hst, hbd, hbl, hother, hri, hrl⟩ :=
        ih (j + 1)
          { b with grid := b.grid.set i (row.set j (Cell.portal nm)),
                   portals := portalAdd b.portals nm ((i : Int), (j : Int)) }
          st (row.set j (Cell.portal nm)) (hsetgrid _) (hsetempty _)
      refine ⟨b', st', row', ?_, by rw [hst]; rfl, by rw [hbd]; simp [rowDests],
        by rw [hbl]; simp, ?_, hri, by rw [hrl, hsetlen]⟩
      · rw [buildRow, processDesc, hset]
        exact hbr
      · intro i' hi'
        rw [hother i' hi', List.get?_set_ne _ _ (fun h => hi' h.symm)]
    | dest c =>
      obtain ⟨b', st', row', hbr, hst, hbd, hbl, hother, hri, hrl⟩ :=
        ih (j + 1)
          { b with grid := b.grid.set i (row.set j (Cell.dest c)),
                   dests := b.dests ++ [(c, ((i : Int), (j : Int)))] }
          st (row.set j (Cell.dest c)) (hsetgrid _) (hsetempty _)
      refine ⟨b', st', row', ?_, by rw [hst]; rfl, ?_,
        by rw [hbl]; simp, ?_, hri, by rw [hrl, hsetlen]⟩
      · rw [buildRow, processDesc, hset]
        exact hbr
      · rw [hbd]
        simp [rowDests]
      · intro i' hi'
        rw [hother i' hi', List.get?_set_ne _ _ (fun h => hi' h.symm)]
    | obstacle =>
      obtain ⟨b', st', row', hbr, hst, hbd, hbl, hother, hri, hrl⟩ :=
        ih (j + 1)
          { b with grid := b.grid.set i (row.set j Cell.obstacle) }
          st (row.set j Cell.obstacle) (hsetgrid _) (hsetempty _)
      refine ⟨b', st', row', ?_, by rw [hst]; rfl, by rw [hbd]; simp [rowDests],
        by rw [hbl]; simp, ?_, hri, by rw [hrl, hsetlen]⟩
      · rw [buildRow, processDesc, hset]
        exact hbr
      · intro i' hi'
        rw [hother i' hi', List.get?_set_ne _ _ (fun h => hi' h.symm)]
    | changer dir =>
      obtain ⟨b', st', row', hbr, hst, hbd, hbl, hother, hri, hrl⟩ :=
        ih (j + 1)
          { b with grid := b.grid.set i (row.set j (Cell.changer dir)) }
          st (row.set j (Cell.changer dir)) (hsetgrid _) (hsetempty _)
      refine ⟨b', st', row', ?_, by rw [hst]; rfl, by rw [hbd]; simp [rowDests],
        by rw [hbl]; simp, ?_, hri, by rw [hrl, hsetlen]⟩
      · rw [buildRow, processDesc, hset]
        exact hbr
      · intro i' hi'
        rw [hother i' hi', List.get?_set_ne _ _ (fun h => hi' h.symm)]

/-- The outer construction loop succeeds when every remaining row of the
model grid is still all-empty and long enough, appending exactly the
grid's spawn and destination records. -/
theorem buildAll_ok :
    ∀ (rows : List (List Desc)) (i : Nat) (b : Board) (st : Status),
      (∀ k rk, k < rows.length → rows.get? k = some rk →
        ∃ row, b.grid.get? (i + k) = some row ∧
          ∀ m, m < rk.length → row.get? m = some Cell.empty) →
      ∃ b' st',
        buildAll i rows (b, st) = some (b', st') ∧
        st'.entries = st.entries ++ gridSpawnEntries i rows ∧
        b'.dests = b.dests ++ gridDests i rows := by
  intro rows
  induction rows with
  | nil =>
    intro i b st _
    exact ⟨b, st, rfl, by simp [gridSpawnEntries], by simp [gridDests]⟩
  | cons row rows ih =>
    intro i b st hrows
    obtain ⟨r0, hr0, hr0e⟩ := hrows 0 row (by simp) (by simp)
    rw [Nat.add_zero] at hr0
    obtain ⟨b₁, st₁, row', hbr, hst₁, hbd₁, hbl₁, hother₁, _, _⟩ :=
      buildRow_ok i row 0 b st r0 hr0 (by
        intro k _ hk2
        exact hr0e k (by simpa using hk2))
    obtain ⟨b', st', hball, hst', hbd'⟩ := ih (i + 1) b₁ st₁ (by
      intro k rk hk hrk
      obtain ⟨rowk, hrowk, hrowke⟩ :=
        hrows (k + 1) rk (by simpa using Nat.succ_lt_succ hk) (by simpa using hrk)
      refine ⟨rowk, ?_, hrowke⟩
      rw [hother₁ (i + 1 + k) (by omega)]
      rw [show i + 1 + k = i + (k + 1) from by omega]
      exact hrowk)
    refine ⟨b', st', ?_, ?_, ?_⟩
    · rw [buildAll, hbr]
      exact hball
    · rw [hst', hst₁, gridSpawnEntries, List.append_assoc]
    · rw [hbd', hbd₁, gridDests, List.append_assoc]

theorem copy_block_length {os : Status} (chain : List Pos) (c : Char) :
    ∀ (l : List Pos), (∀ p ∈ l, (os.facingAt p).isSome) →
      (l.filterMap fun p => if p ∈ chain then none
        else (os.facingAt p).map fun f => (⟨c, p, f⟩ : Entry)).length =
      l.countP (fun p => ¬ p ∈ chain) := by
  intro l
  induction l with
  | nil => intro _; simp
  | cons p l ih =>
    intro hsome
    rw [List.filterMap_cons, List.countP_cons]
    by_cases hpc : p ∈ chain
    · simp [hpc, ih fun q hq => hsome q (.tail _ hq)]
    · rcases Option.isSome_iff_exists.mp (hsome p (.head _)) with ⟨f, hf⟩
      simp [hpc, hf, ih fun q hq => hsome q (.tail _ hq)]

theorem flatMap_copy_countP {os : Status} (hnd : os.allPositions.Nodup)
    (chain : List Pos) (ch : Char) :
    ∀ (ks : List Char), ks.Nodup →
      ((ks.flatMap fun c => (firstDedup (os.posList c)).filterMap fun p =>
          if p ∈ chain then none
          else (os.facingAt p).map fun f => (⟨c, p, f⟩ : Entry)).countP
        fun e => e.color = ch) =
      if ch ∈ ks then (os.posList ch).countP (fun p => ¬ p ∈ chain) else 0 := by
  intro ks
  induction ks with
  | nil => simp
  | cons k ks ih =>
    intro hndk
    obtain ⟨hk, hndk'⟩ := List.nodup_cons.mp hndk
    rw [List.flatMap_cons, List.countP_append, ih hndk']
    have hsome : ∀ p ∈ firstDedup (os.posList k), (os.facingAt p).isSome := by
      intro p hp
      rcases mem_posList_iff.mp (mem_firstDedup.mp hp) with ⟨e, he, _, hpp⟩
      exact facingAt_isSome ⟨e, he, hpp⟩
    by_cases hkch : k = ch
    · subst hkch
      rw [if_neg hk, if_pos (List.mem_cons_self _ _)]
      have hlen : ((firstDedup (os.posList k)).filterMap fun p =>
          if p ∈ chain then none
          else (os.facingAt p).map fun f => (⟨k, p, f⟩ : Entry)).countP
            (fun e => e.color = k) =
          ((firstDedup (os.posList k)).filterMap fun p =>
          if p ∈ chain then none
          else (os.facingAt p).map fun f => (⟨k, p, f⟩ : Entry)).length := by
        rw [List.countP_eq_length]
        intro e he
        rcases List.mem_filterMap.mp he with ⟨p, _, hres⟩
        by_cases hpc : p ∈ chain
        · simp [hpc] at hres
        · simp only [hpc, if_neg, ite_false] at hres
          rcases Option.map_eq_some'.mp hres with ⟨f, _, he'⟩
          subst he'
          simp
      rw [hlen, copy_block_length chain k _ hsome, Nat.add_zero,
        firstDedup_eq_self (posList_nodup hnd k)]
    · have hzero : ((firstDedup (os.posList k)).filterMap fun p =>
          if p ∈ chain then none
          else (os.facingAt p).map fun f => (⟨k, p, f⟩ : Entry)).countP
            (fun e => e.color = ch) = 0 := by
        rw [List.countP_eq_zero]
        intro e he
        rcases List.mem_filterMap.mp he with ⟨p, _, hres⟩
        by_cases hpc : p ∈ chain
        · simp [hpc] at hres
        · simp only [hpc, if_neg, ite_false] at hres
          rcases Option.map_eq_some'.mp hres with ⟨f, _, he'⟩
          subst he'
          simpa using hkch
      rw [hzero, Nat.zero_add]
      have hiff : (ch ∈ k :: ks) ↔ (ch ∈ ks) := by
        constructor
        · intro h
          rcases List.mem_cons.mp h with rfl | h
          · exact absurd rfl hkch
          · exact h
        · exact List.mem_cons_of_mem _
      exact if_congr hiff.symm rfl rfl

/-- Claim C7 (amended): for a square grid of well-formed descriptors with
at least five rows, construction fails — before any search step — exactly
when the spawn/destination color check of `validate` fails: equal color
sets and, per color, equally many destination cells and block spawns.
Portal pairing is not examined at construction, and the duplicate-
assignment assert cannot fire on a descriptor grid (each cell is processed
once). -/
theorem construction_checks_colors_only (g : List (List Desc)) (n : Nat)
    (hn : g.length = n) (h5 : 5 ≤ n) (hrows : ∀ row ∈ g, row.length = n) :
    solverInit g = none ↔ gridValid g = false := by
  have hget : ∀ k, k < 5 → ∃ r, g.get? k = some r := by
    intro k hk
    have hkn : k < g.length := by omega
    have : (g.get? k).isSome := by
      rw [List.get?_eq_getElem?]
      simp [hkn]
    exact Option.isSome_iff_exists.mp this
  obtain ⟨r0, h0⟩ := hget 0 (by omega)
  obtain ⟨r1, h1⟩ := hget 1 (by omega)
  obtain ⟨r2, h2⟩ := hget 2 (by omega)
  obtain ⟨r3, h3⟩ := hget 3 (by omega)
  obtain ⟨r4, h4⟩ := hget 4 (by omega)
  have hlen : ∀ k r, g.get? k = some r → r.length = n :=
    fun k r h => hrows r (List.get?_mem h)
  have hcond : r0.length = r1.length ∧ r1.length = r2.length ∧
      r2.length = r3.length ∧ r3.length = r4.length := by
    rw [hlen 0 r0 h0, hlen 1 r1 h1, hlen 2 r2 h2, hlen 3 r3 h3, hlen 4 r4 h4]
    exact ⟨rfl, rfl, rfl, rfl⟩
  obtain ⟨bF, stF, hball, hst', hbd'⟩ := buildAll_ok g 0
    ⟨List.replicate g.length (List.replicate g.length Cell.empty), [], []⟩
    ⟨[]⟩ (by
      intro k rk hk hrk
      refine ⟨List.replicate g.length Cell.empty, ?_, ?_⟩
      · show (List.replicate g.length (List.replicate g.length Cell.empty)).get?
          (0 + k) = _
        rw [List.get?_eq_getElem?, List.getElem?_replicate]
        simp [hk]
      · intro m hm
        have hmn : m < g.length := by
          rw [hlen k rk hrk] at hm
          omega
        rw [List.get?_eq_getElem?, List.getElem?_replicate]
        simp [hmn])
  have hval : validate bF stF = gridValid g := by
    rw [gridValid]
    have hd : bF.dests = gridDests 0 g := by simpa using hbd'
    have he : stF.entries = gridSpawnEntries 0 g := by simpa using hst'
    simp [validate, Board.colorList, Board.destList, Status.colorKeys,
      Status.posList, hd, he]
  rw [show solverInit g =
      (if validate bF stF then some (bF, stF) else none) from by
    rw [solverInit, h0, h1, h2, h3, h4]
    simp only []
    rw [if_pos hcond, hball]]
  cases hv : gridValid g with
  | false =>
    rw [hval, hv]
    simp
  | true =>
    rw [hval, hv]
    simp

/-- Witness for the amended C7: `lonePortalGrid` is 5 × 5, its colors
check out, and construction indeed succeeds. -/
theorem construction_checks_colors_only_witness :
    solverInit lonePortalGrid = none ↔ gridValid lonePortalGrid = false :=
  construction_checks_colors_only lonePortalGrid 5 rfl (by decide) (by decide)

/-- Claim C9: when every chain of the chosen color fails (the initiator
loop reports no successful `_push_forward` call), the move returns a
Configuration structurally equal to its input. -/
theorem noop_move_equals_input (b : Board) (os : Status) (c : Char)
    (stF : PState) (hnd : os.allPositions.Nodup)
    (hrun : runInits b os (pfFuel os) (initsOf os c) PState.empty =
      some (stF, false)) :
    ∃ ns, move b os c = some ns ∧ ns.eqB os = true := by
  refine ⟨⟨stF.ns ++ copyUnmoved os stF.chain⟩, by rw [move, hrun], ?_⟩
  set ns : Status := ⟨stF.ns ++ copyUnmoved os stF.chain⟩ with hns
  obtain ⟨ps, es, hchain, hes, hfresh, _, _, hmm⟩ :=
    runInits_spec (pfFuel os) (initsOf os c) PState.empty stF false hrun
  simp only [PState.empty, List.nil_append] at hchain hes
  have hmm' := hmm rfl
  -- entries of the result are exactly the original entries
  have hstep : ∀ e, e ∈ ns.entries ↔ e ∈ os.entries := by
    intro e
    simp only [hns, List.mem_append]
    constructor
    · rintro (he | he)
      · rw [hes] at he
        rcases (hmm' e).mp he with ⟨q, hq, rfl⟩
        have hqsome := (hfresh q (by simpa using hq)).2
        rcases colorAt_isSome_iff.mp hqsome with ⟨e', he', hp'⟩
        rw [← hp', origEntry_eq_of_entry hnd he']
        exact he'
      · exact ((copy_mem hnd _ e).mp he).1
    · intro he
      by_cases hqc : e.pos ∈ stF.chain
      · left
        rw [hes]
        refine (hmm' e).mpr ⟨e.pos, by rw [hchain] at hqc; simpa using hqc, ?_⟩
        rw [origEntry_eq_of_entry hnd he]
      · right
        exact (copy_mem hnd _ e).mpr ⟨he, hqc⟩
  -- the recorded facing at every occupied position is unchanged
  have hface : ∀ p e0, e0 ∈ os.entries → e0.pos = p →
      ns.facingAt p = os.facingAt p := by
    intro p e0 he0 hp0
    have hall : ∀ x ∈ ns.entries.filter fun x => x.pos = p, x = e0 := by
      intro x hx
      have hx' := List.mem_filter.mp hx
      exact entry_unique hnd ((hstep x).mp hx'.1) he0
        (by rw [hp0]; simpa using hx'.2)
    have hmem0 : e0 ∈ ns.entries.filter fun x => x.pos = p :=
      List.mem_filter.mpr ⟨(hstep e0).mpr he0, by simp [hp0]⟩
    rw [Status.facingAt, getLast?_eq_of_all _ e0 hmem0 hall]
    rw [← hp0, facingAt_eq_of_entry hnd he0]
    rfl
  -- assemble structural equality
  rw [Status.eqB, Bool.and_eq_true]
  constructor
  · rw [setEqB_iff]
    constructor
    · intro ch hch
      rcases mem_colorKeys_iff.mp hch with ⟨e, he, rfl⟩
      exact mem_colorKeys_iff.mpr ⟨e, (hstep e).mp he, rfl⟩
    · intro ch hch
      rcases mem_colorKeys_iff.mp hch with ⟨e, he, rfl⟩
      exact mem_colorKeys_iff.mpr ⟨e, (hstep e).mpr he, rfl⟩
  · rw [List.all_eq_true]
    intro ch _
    rw [Bool.and_eq_true]
    constructor
    · rw [setEqB_iff]
      constructor
      · intro p hp
        rcases mem_posList_iff.mp hp with ⟨e, he, hc, hpp⟩
        exact mem_posList_iff.mpr ⟨e, (hstep e).mp he, hc, hpp⟩
      · intro p hp
        rcases mem_posList_iff.mp hp with ⟨e, he, hc, hpp⟩
        exact mem_posList_iff.mpr ⟨e, (hstep e).mpr he, hc, hpp⟩
    · rw [List.all_eq_true]
      intro p hp
      have hp' : p ∈ ns.posList ch := mem_firstDedup.mp hp
      rcases mem_posList_iff.mp hp' with ⟨e, he, _, hpp⟩
      exact decide_eq_true (hface p e ((hstep e).mp he) hpp)

/-- Claim C10 (amended): a move that completes without error neither
creates, destroys nor recolors block records, provided the input's
occupied cells are pairwise distinct: per color, the successor holds
exactly as many entries as the input, and the same colors are present.
(Two entries can nevertheless come to share one cell, so the per-color
count of distinct occupied cells may shrink and the construction-time
invariant does not persist across later moves.) -/
theorem move_preserves_entry_counts (b : Board) (os : Status) (c : Char)
    (ns : Status) (hnd : os.allPositions.Nodup) (h : move b os c = some ns) :
    (∀ ch : Char, ns.entries.countP (fun e => e.color = ch) =
      os.entries.countP (fun e => e.color = ch)) ∧
    (∀ ch : Char, ch ∈ ns.colorKeys ↔ ch ∈ os.colorKeys) := by
  cases hrun : runInits b os (pfFuel os) (initsOf os c) PState.empty with
  | none => rw [move, hrun] at h; exact absurd h (by simp)
  | some pr =>
  obtain ⟨stF, anyT⟩ := pr
  rw [move, hrun] at h
  simp only [Option.some.injEq] at h
  obtain ⟨ps, es, hchain, hes, hfresh, hndps, hcol, _⟩ :=
    runInits_spec (pfFuel os) (initsOf os c) PState.empty stF anyT hrun
  simp only [PState.empty, List.nil_append] at hchain hes
  have hcount : ∀ ch : Char, ns.entries.countP (fun e => e.color = ch) =
      os.entries.countP (fun e => e.color = ch) := by
    intro ch
    rw [← h]
    show (stF.ns ++ copyUnmoved os stF.chain).countP (fun e => e.color = ch) = _
    rw [List.countP_append, hes, hchain]
    -- the chain part counts the chained positions of color `ch`
    have h1 : es.countP (fun e => e.color = ch) =
        ps.countP (fun q => colorD os q = ch) := by
      have hm1 : (es.map Entry.color).countP (fun x => x = ch) =
          es.countP (fun e => e.color = ch) := List.countP_map _ _ _
      have hm2 : (ps.map (colorD os)).countP (fun x => x = ch) =
          ps.countP (fun q => colorD os q = ch) := List.countP_map _ _ _
      rw [← hm1, ← hm2, hcol.countP_eq]
    have h2 : ps.countP (fun q => colorD os q = ch) =
        ps.countP (fun q => q ∈ os.posList ch) := by
      refine List.countP_congr fun q hq => ?_
      have hqsome := (hfresh q hq).2
      rcases colorAt_isSome_iff.mp hqsome with ⟨e', he', hp'⟩
      have hcq : colorD os q = e'.color := by
        rw [colorD, ← hp', colorAt_eq_of_entry hnd he']
        rfl
      simp only [decide_eq_true_eq, hcq]
      constructor
      · intro hcol'
        exact mem_posList_iff.mpr ⟨e', he', hcol', hp'⟩
      · intro hmem'
        rcases mem_posList_iff.mp hmem' with ⟨e'', he'', hc'', hp''⟩
        rw [← hc'']
        congr 1
        exact entry_unique hnd he' he'' (by rw [hp', hp''])
    have h3 : ps.countP (fun q => q ∈ os.posList ch) =
        (os.posList ch).countP (fun q => q ∈ ps) := by
      have hcc := countP_mem_comm ps (os.posList ch) hndps (posList_nodup hnd ch)
      refine (List.countP_congr fun q _ => ?_).trans
        (hcc.trans (List.countP_congr fun q _ => ?_))
      · by_cases hq : q ∈ os.posList ch <;> simp [hq]
      · by_cases hq : q ∈ ps <;> simp [hq]
    have h4 : (copyUnmoved os ps).countP (fun e => e.color = ch) =
        (os.posList ch).countP (fun p => ¬ p ∈ ps) := by
      rw [copyUnmoved]
      rw [flatMap_copy_countP hnd ps ch os.colorKeys
        (nodup_firstDedup _)]
      by_cases hch : ch ∈ os.colorKeys
      · rw [if_pos hch]
      · rw [if_neg hch]
        have hempty : os.posList ch = [] := by
          rw [List.eq_nil_iff_forall_not_mem]
          intro p hp
          rcases mem_posList_iff.mp hp with ⟨e, he, hc', _⟩
          exact hch (mem_colorKeys_iff.mpr ⟨e, he, hc'⟩)
        rw [hempty]
        rfl
    have h5 : os.entries.countP (fun e => e.color = ch) =
        (os.posList ch).length := by
      rw [posList_eq_map_filter, List.length_map, ← List.countP_eq_length_filter]
    rw [h1, h2, h3, h4, h5]
    have hsplit := List.length_eq_countP_add_countP
      (fun q => q ∈ ps) (os.posList ch)
    have hc2 : (os.posList ch).countP
          (fun a => decide ¬((fun q => decide (q ∈ ps)) a = true)) =
        (os.posList ch).countP (fun p => ¬ p ∈ ps) :=
      List.countP_congr fun q _ => by by_cases hq : q ∈ ps <;> simp [hq]
    rw [hc2] at hsplit
    omega
  refine ⟨hcount, fun ch => ?_⟩
  have hpos : ∀ (s : Status), ch ∈ s.colorKeys ↔
      0 < s.entries.countP (fun e => e.color = ch) := by
    intro s
    rw [List.countP_pos_iff, mem_colorKeys_iff]
    constructor
    · rintro ⟨e, he, hc'⟩; exact ⟨e, he, by simp [hc']⟩
    · rintro ⟨e, he, hc'⟩; exact ⟨e, he, by simpa using hc'⟩
  rw [hpos ns, hpos os, hcount ch]

/-- Witness for the amended C10: one move on `plainGrid` preserves the
single `R` entry. -/
theorem move_preserves_entry_counts_witness :
    (∀ ch : Char,
      (Status.entries ⟨[⟨'R', (1, 1), .E⟩]⟩).countP (fun e => e.color = ch) =
      (builtOf plainGrid).2.entries.countP (fun e => e.color = ch)) ∧
    (∀ ch : Char, ch ∈ (Status.colorKeys ⟨[⟨'R', (1, 1), .E⟩]⟩) ↔
      ch ∈ (builtOf plainGrid).2.colorKeys) :=
  move_preserves_entry_counts (builtOf plainGrid).1 (builtOf plainGrid).2 'R'
    ⟨[⟨'R', (1, 1), .E⟩]⟩ (by decide) rfl

/-- Witness for C9: on `stuckGrid` the lone `R` chain fails at the north
edge and the move is a structural no-op. -/
theorem noop_move_equals_input_witness :
    ∃ ns, move (builtOf stuckGrid).1 (builtOf stuckGrid).2 'R' = some ns ∧
      ns.eqB (builtOf stuckGrid).2 = true :=
  noop_move_equals_input (builtOf stuckGrid).1 (builtOf stuckGrid).2 'R'
    ⟨[⟨'R', (0, 0), .N⟩], [(0, 0)], []⟩ (by decide) rfl

/-- Claim C4 (amended): when a chain fails — at the board edge, an
obstacle, or an opposite-facing same-color link — every member of that
chain is recorded in the successor status with its original color,
coordinate and recorded facing (the facing finally shown at that
coordinate can still be overwritten when a later chain of the same move
advances another block onto the member's cell). -/
theorem failed_chain_members_stay (b : Board) (os : Status)
    (fuel : Nat) (p : Pos) (t : Dir) (st st' : PState)
    (h : pushForward b os fuel p t st = some (false, st')) :
    ∃ ps, st'.chain = st.chain ++ ps ∧
      st'.ns = st.ns ++ ps.reverse.map (origEntry os) ∧
      ∀ q ∈ ps, origEntry os q ∈ st'.ns ∧ (origEntry os q).pos = q ∧
        os.colorAt q = some (origEntry os q).color ∧
        os.facingAt q = some (origEntry os q).dir := by
  obtain ⟨ps, es, hchain, hns, hfresh, _, _, hfail⟩ :=
    pushForward_spec fuel p t st false st' h
  refine ⟨ps, hchain, by rw [hns, hfail rfl], ?_⟩
  intro q hq
  have hsome := (hfresh q hq).2
  have hfsome := facingAt_isSome_of_colorAt hsome
  rcases Option.isSome_iff_exists.mp hsome with ⟨cq, hcq⟩
  rcases Option.isSome_iff_exists.mp hfsome with ⟨fq, hfq⟩
  refine ⟨?_, by simp [origEntry], by simp [origEntry, colorD, hcq], by
    simp [origEntry, hfq]⟩
  rw [hns, hfail rfl]
  have : origEntry os q ∈ ps.reverse.map (origEntry os) :=
    List.mem_map_of_mem _ (List.mem_reverse.mpr hq)
  exact List.mem_append.mpr (Or.inr this)

/-- Witness for the amended C4: the lone north-facing block of `stuckGrid`
fails at the board edge and is recorded unmoved. -/
theorem failed_chain_members_stay_witness :
    ∃ ps, (⟨[⟨'R', (0, 0), .N⟩], [(0, 0)], []⟩ : PState).chain =
        ([] : List Pos) ++ ps ∧
      (⟨[⟨'R', (0, 0), .N⟩], [(0, 0)], []⟩ : PState).ns =
        ([] : List Entry) ++ ps.reverse.map (origEntry (builtOf stuckGrid).2) ∧
      ∀ q ∈ ps, origEntry (builtOf stuckGrid).2 q ∈
          (⟨[⟨'R', (0, 0), .N⟩], [(0, 0)], []⟩ : PState).ns ∧
        (origEntry (builtOf stuckGrid).2 q).pos = q ∧
        (builtOf stuckGrid).2.colorAt q =
          some (origEntry (builtOf stuckGrid).2 q).color ∧
        (builtOf stuckGrid).2.facingAt q =
          some (origEntry (builtOf stuckGrid).2 q).dir :=
  failed_chain_members_stay (builtOf stuckGrid).1 (builtOf stuckGrid).2
    (pfFuel (builtOf stuckGrid).2) (0, 0) .N PState.empty
    ⟨[⟨'R', (0, 0), .N⟩], [(0, 0)], []⟩ rfl

/-- Claim C3 (amended): a successful push into an in-bounds portal cell
lands the instance exactly one further cell past the paired portal along
the direction of travel — its record is the last entry the frame appends
(the landing cell itself is not re-examined for portals, so it may be a
portal cell). -/
theorem portal_travel_lands_past_pair (b : Board) (os : Status)
    (fuel : Nat) (p : Pos) (t : Dir) (st st' : PState) (c : Char) (q : Pos)
    (hmem : p ∉ st.chain)
    (hc : os.colorAt p = some c)
    (hin : b.inBounds (p.1 + (vel t).1, p.2 + (vel t).2) = true)
    (hpt : b.isPortal (p.1 + (vel t).1, p.2 + (vel t).2) = some true)
    (hq : getAnotherPortal b.portals (p.1 + (vel t).1, p.2 + (vel t).2) = some q)
    (h : pushForward b os fuel p t st = some (true, st')) :
    ∃ es d, st'.ns = st.ns ++ es ++ [⟨c, (q.1 + (vel t).1, q.2 + (vel t).2), d⟩] := by
  have hrt : resolveTarget b p t = some (some (q.1 + (vel t).1, q.2 + (vel t).2)) := by
    simp [resolveTarget, hin, hpt, hq]
  cases fuel with
  | zero => simp [pushForward] at h
  | succ fuel =>
    cases hf : os.facingAt p with
    | none =>
      have := @facingAt_isSome_of_colorAt os p (by simp [hc])
      simp [hf] at this
    | some facing =>
    set target : Pos := (q.1 + (vel t).1, q.2 + (vel t).2) with htarget
    cases hoc : os.colorAt target with
    | none =>
      rw [show pushForward b os (fuel + 1) p t st =
          pfBlockedOrFree b { st with chain := st.chain ++ [p] }
            c p facing target from by
        simp [pushForward, hmem, hc, hf, hrt, hoc]] at h
      cases hob : b.isObstacle target with
      | none => simp [pfBlockedOrFree, hob] at h
      | some bo =>
      cases bo with
      | true =>
        rw [show pfBlockedOrFree b { st with chain := st.chain ++ [p] }
            c p facing target =
            some (false, PState.addEntry { st with chain := st.chain ++ [p] }
              c p facing) from by simp [pfBlockedOrFree, hob]] at h
        simp at h
      | false =>
        cases hch : b.facingChangeAt target with
        | none => simp [pfBlockedOrFree, pfAdvance, hob, hch] at h
        | some ov =>
          rw [show pfBlockedOrFree b { st with chain := st.chain ++ [p] }
              c p facing target =
              some (true,
                { PState.addEntry { st with chain := st.chain ++ [p] }
                    c target (ov.getD facing) with
                  pushed := st.pushed ++ [p] }) from by
            simp [pfBlockedOrFree, pfAdvance, hob, hch, PState.addEntry]] at h
          simp only [Option.some.injEq, Prod.mk.injEq, true_and] at h
          refine ⟨[], ov.getD facing, ?_⟩
          rw [← h, PState.addEntry]
          simp
    | some oc =>
      have hmcf := memColorPos_false oc (st.pushed)
      cases hnt : (if oc = c then os.facingAt target else some t) with
      | none => simp [pushForward, hmem, hc, hf, hrt, hoc, hmcf, hnt] at h
      | some nt =>
      by_cases hopp : (vel t).1 + (vel nt).1 = 0 ∧ (vel t).2 + (vel nt).2 = 0
      · rw [show pushForward b os (fuel + 1) p t st =
            some (false, PState.addEntry { st with chain := st.chain ++ [p] }
              c p facing) from by
          simp [pushForward, hmem, hc, hf, hrt, hoc, hmcf, hnt, hopp]] at h
        simp at h
      · cases hrec : pushForward b os fuel target nt
            { st with chain := st.chain ++ [p] } with
        | none =>
          simp [pushForward, hmem, hc, hf, hrt, hoc, hmcf, hnt, hopp, hrec] at h
        | some pr =>
        obtain ⟨ok₂, st₂⟩ := pr
        obtain ⟨ps₂, es₂, _, hns₂, _, _, _, _⟩ :=
          pushForward_spec fuel target nt { st with chain := st.chain ++ [p] }
            ok₂ st₂ hrec
        cases ok₂ with
        | false =>
          rw [show pushForward b os (fuel + 1) p t st =
              some (false, PState.addEntry st₂ c p facing) from by
            simp [pushForward, hmem, hc, hf, hrt, hoc, hmcf, hnt, hopp, hrec]] at h
          simp at h
        | true =>
          cases hch : b.facingChangeAt target with
          | none =>
            simp [pushForward, pfAdvance, hmem, hc, hf, hrt, hoc, hmcf, hnt,
              hopp, hrec, hch] at h
          | some ov =>
            rw [show pushForward b os (fuel + 1) p t st =
                some (true,
                  { PState.addEntry st₂ c target (ov.getD facing) with
                    pushed := st₂.pushed ++ [p] }) from by
              simp [pushForward, pfAdvance, hmem, hc, hf, hrt, hoc, hmcf, hnt,
                hopp, hrec, hch, PState.addEntry]] at h
            simp only [Option.some.injEq, Prod.mk.injEq, true_and] at h
            refine ⟨es₂, ov.getD facing, ?_⟩
            rw [← h, PState.addEntry]
            simp [hns₂]

/-- Witness for the amended C3: on `portalRestGrid` the pushed block lands
at `(0,4)`, one step past the portal paired with `(0,1)`. -/
theorem portal_travel_lands_past_pair_witness :
    ∃ es d,
      (⟨[⟨'R', (0, 4), .E⟩], [(0, 0)], [(0, 0)]⟩ : PState).ns =
        ([] : List Entry) ++ es ++
          [⟨'R', (((0 : Int), (3 : Int)).1 + (vel .E).1,
                 ((0 : Int), (3 : Int)).2 + (vel .E).2), d⟩] :=
  portal_travel_lands_past_pair (builtOf portalRestGrid).1
    (builtOf portalRestGrid).2 (pfFuel (builtOf portalRestGrid).2)
    (0, 0) .E PState.empty ⟨[⟨'R', (0, 4), .E⟩], [(0, 0)], [(0, 0)]⟩
    'R' (0, 3) (by simp [PState.empty]) rfl rfl rfl rfl rfl

/-- Claim C5: at a push link whose (possibly teleported) target is
occupied, the resolution continues exactly as `linkContinuation`
prescribes: a same-color occupant is pushed along its own recorded facing
— the link failing outright when that facing is exactly opposite the
incoming direction — while a different-color occupant is always pushed
along the incoming direction. -/
theorem link_follows_occupant_facing (b : Board) (os : Status)
    (fuel : Nat) (p : Pos) (t : Dir) (st : PState)
    (c : Char) (f : Dir) (target : Pos) (oc : Char) (ocf : Dir)
    (hmem : p ∉ st.chain)
    (hc : os.colorAt p = some c)
    (hf : os.facingAt p = some f)
    (hrt : resolveTarget b p t = some (some target))
    (hoc : os.colorAt target = some oc)
    (hof : os.facingAt target = some ocf) :
    pushForward b os (fuel + 1) p t st =
      match linkContinuation c oc t ocf with
      | none =>
        some (false, PState.addEntry { st with chain := st.chain ++ [p] } c p f)
      | some nt =>
        match pushForward b os fuel target nt
            { st with chain := st.chain ++ [p] } with
        | none => none
        | some (true, st₂) => pfAdvance b st₂ c p f target
        | some (false, st₂) => some (false, PState.addEntry st₂ c p f) := by
  by_cases hsame : oc = c
  · by_cases hopp : ocf = t.opposite
    · have hv : ((vel t).1 + (vel ocf).1 = 0 ∧ (vel t).2 + (vel ocf).2 = 0) :=
        (vel_sum_zero_iff t ocf).mpr hopp
      rw [show linkContinuation c oc t ocf = none from by
        simp [linkContinuation, hsame, hopp]]
      simp [pushForward, hmem, hc, hf, hrt, hoc, hof, memColorPos_false,
        hsame, hv.1, hv.2]
    · have hv : ¬ ((vel t).1 + (vel ocf).1 = 0 ∧ (vel t).2 + (vel ocf).2 = 0) :=
        fun hz => hopp ((vel_sum_zero_iff t ocf).mp hz)
      rw [show linkContinuation c oc t ocf = some ocf from by
        simp [linkContinuation, hsame, hopp]]
      simp [pushForward, hmem, hc, hf, hrt, hoc, hof, memColorPos_false,
        hsame, hv]
  · have hv : ¬ ((vel t).1 + (vel t).1 = 0 ∧ (vel t).2 + (vel t).2 = 0) := by
      intro hz
      have := (vel_sum_zero_iff t t).mp hz
      cases t <;> simp [Dir.opposite] at this
    have hvz : ¬ ((vel t).1 = 0 ∧ (vel t).2 = 0) := by
      cases t <;> decide
    rw [show linkContinuation c oc t ocf = some t from by
      simp [linkContinuation, hsame]]
    simp [pushForward, hmem, hc, hf, hrt, hoc, hof, memColorPos_false,
      hsame, hv, hvz]

/-- Witness for C5, instantiated on `overwriteGrid`: the block at `(1,2)`
pushing north into the same-color occupant at `(0,2)` continues along the
occupant's facing `E`. -/
theorem link_follows_occupant_facing_witness :
    pushForward (builtOf overwriteGrid).1 (builtOf overwriteGrid).2
        (0 + 1) (1, 2) .N PState.empty =
      match linkContinuation 'R' 'R' .N .E with
      | none =>
        some (false, PState.addEntry
          { PState.empty with
            chain := PState.empty.chain ++ [((1 : Int), (2 : Int))] }
          'R' (1, 2) .N)
      | some nt =>
        match pushForward (builtOf overwriteGrid).1 (builtOf overwriteGrid).2
            0 (0, 2) nt
            { PState.empty with
              chain := PState.empty.chain ++ [((1 : Int), (2 : Int))] } with
        | none => none
        | some (true, st₂) =>
          pfAdvance (builtOf overwriteGrid).1 st₂ 'R' (1, 2) .N (0, 2)
        | some (false, st₂) => some (false, PState.addEntry st₂ 'R' (1, 2) .N) :=
  link_follows_occupant_facing (builtOf overwriteGrid).1 (builtOf overwriteGrid).2
    0 (1, 2) .N PState.empty 'R' .N (0, 2) 'R' .E
    (by simp [PState.empty]) rfl rfl rfl rfl rfl

/-- Claim C6: a push chain that reaches a cell already in the chain set
treats it as vacatable — the call succeeds at once and moves nothing
further — and a ring of mutually pushing same-color blocks therefore
advances as a whole: on `ringGrid` all four members of the 2 × 2 ring
rotate one step. -/
theorem cyclic_chain_advances :
    (∀ (b : Board) (os : Status) (fuel : Nat) (p : Pos) (t : Dir) (st : PState),
      p ∈ st.chain → pushForward b os (fuel + 1) p t st = some (true, st)) ∧
    move (builtOf ringGrid).1 (builtOf ringGrid).2 'R' =
      some ⟨[⟨'R', (0, 0), .N⟩, ⟨'R', (1, 0), .W⟩,
             ⟨'R', (1, 1), .S⟩, ⟨'R', (0, 1), .E⟩]⟩ := by
  constructor
  · intro b os fuel p t st hmem
    simp [pushForward, hmem]
  · rfl

/-- Witness for C6: the cycle-closing call of the `ringGrid` resolution,
`(0,0)` revisited with the chain set holding all four ring members,
succeeds and leaves the state untouched. -/
theorem cyclic_chain_advances_witness :
    pushForward (builtOf ringGrid).1 (builtOf ringGrid).2 (0 + 1) (0, 0) .E
        ⟨[], [(0, 0), (0, 1), (1, 1), (1, 0)], []⟩ =
      some (true, ⟨[], [(0, 0), (0, 1), (1, 1), (1, 0)], []⟩) :=
  cyclic_chain_advances.1 (builtOf ringGrid).1 (builtOf ringGrid).2 0 (0, 0) .E
    ⟨[], [(0, 0), (0, 1), (1, 1), (1, 0)], []⟩ (by simp)

/-- Claim C10, counterexample: on `mergeGrid`, moving `R` merges two
instances onto one cell: the Configuration-level instance set of `R`
shrinks from two (coordinate, facing) pairs to one, and the following `R`
move (a single-initiator move, order-independent) leaves a single
recorded instance — a move can destroy a block.  The merging move runs
the blocked initiator first under the model's order and under CPython 2's
set order alike. -/
theorem move_destroys_instance :
    (move (builtOf mergeGrid).1 (builtOf mergeGrid).2 'R').map
        (fun ns => (((builtOf mergeGrid).2.pairList 'R').length,
                    (ns.pairList 'R').length)) = some (2, 1) ∧
    ((move (builtOf mergeGrid).1 (builtOf mergeGrid).2 'R').bind
        (fun ns => move (builtOf mergeGrid).1 ns 'R')).map
        (fun ns => ns.entries.length) = some 1 ∧
    (builtOf mergeGrid).2.entries.length = 2 :=
  ⟨rfl, rfl, rfl⟩

end PushSquares
